import Mathlib

/-!
Verification development for `parse_qgroups.py`, a parser for the output of
`btrfs qgroup show --raw -p` concatenated with `btrfs sub list`.

The Python source is shallowly embedded below: every function of the script is
translated into an executable Lean definition operating on `String`/`List`
values, with Python machine behaviour made explicit:
  * `str.strip` / `str.split` / `str.split('/', 1)` / `str.startswith` /
    `str.isdigit` / `int(...)` are modelled character by character;
  * Python `dict` is modelled as an insertion-ordered association list where
    inserting an existing key updates the value in place (last write wins,
    first insertion position kept), exactly the CPython semantics;
  * `sorted(..., key=...)` is modelled as a stable insertion sort by the same
    key; on the lists the program sorts, keys are injective, so any two
    stable (indeed, any two) sorts agree;
  * exceptions are modelled with `Except`; the bare `assert` on line 2 of the
    input is a distinct error value since Python raises `AssertionError`, not
    the script's own `ParseError`;
  * the recursive generator `QGroupTree._walk` has no structural termination
    argument in Python; it is embedded with an explicit fuel parameter, and
    the development proves that fuel `number of entries + 1` is exact (the
    output is stable for every larger fuel), which is the shallow rendering of
    the termination of the Python recursion.
-/

/-! ## Python string primitives -/

/-- Characters treated as whitespace by Python `str.split()` / `str.strip()`
(ASCII range; the input of this program is ASCII machine output). -/
def pyIsSpaceChar (c : Char) : Bool :=
  c = ' ' || c = '\t' || c = '\n' || c = '\r' || c = '\x0b' || c = '\x0c'

/-- Python `str.strip()`: remove leading and trailing whitespace. -/
def pyStrip (s : String) : String :=
  ⟨((s.data.dropWhile pyIsSpaceChar).reverse.dropWhile pyIsSpaceChar).reverse⟩

/-- Worker for `pySplitWs`: `cur` holds the current token, reversed. -/
def pySplitWsGo : List Char → List Char → List String
  | [], cur => if cur.isEmpty then [] else [⟨cur.reverse⟩]
  | c :: cs, cur =>
    if pyIsSpaceChar c then
      if cur.isEmpty then pySplitWsGo cs [] else ⟨cur.reverse⟩ :: pySplitWsGo cs []
    else pySplitWsGo cs (c :: cur)

/-- Python `str.split()` with no arguments: split on runs of whitespace,
discarding empty tokens. -/
def pySplitWs (s : String) : List String := pySplitWsGo s.data []

/-- Python `str.startswith(p)`. -/
def pyStartswith (s p : String) : Bool := p.data.isPrefixOf s.data

/-- Python `s.split('/', 1)` restricted to the split position: `none` when `s`
contains no `'/'`, otherwise the parts before and after the first `'/'`. -/
def splitSlashOnce : List Char → Option (List Char × List Char)
  | [] => none
  | c :: cs =>
    if c = '/' then some ([], cs)
    else (splitSlashOnce cs).map (fun p => (c :: p.1, p.2))

/-- Python `str.isdigit()` (ASCII digits): nonempty and all characters digits. -/
def pyIsDigit (s : String) : Bool := !s.data.isEmpty && s.data.all Char.isDigit

/-- Numeric value of a digit character. -/
def charVal (c : Char) : Nat := c.toNat - 48

/-- Value of a string of decimal digits (used only after `pyIsDigit`). -/
def strToNat (s : String) : Nat := s.data.foldl (fun a c => a * 10 + charVal c) 0

/-- Digits of a Python integer literal after the first one: single underscores
are allowed between digits (`int("1_000")` is legal Python). -/
def pyIntDigits : List Char → Nat → Option Nat
  | [], acc => some acc
  | '_' :: c :: rest, acc =>
    if c.isDigit then pyIntDigits rest (acc * 10 + charVal c) else none
  | c :: rest, acc =>
    if c.isDigit then pyIntDigits rest (acc * 10 + charVal c) else none

/-- Unsigned part of Python `int(...)`: at least one digit. -/
def pyIntCore : List Char → Option Nat
  | [] => none
  | c :: cs => if c.isDigit then pyIntDigits cs (charVal c) else none

/-- Python `int(s)` on a whitespace-free token: optional sign, then digits
(with Python's underscore grouping); `none` models `ValueError`. -/
def pyInt (s : String) : Option Int :=
  match s.data with
  | '+' :: rest => (pyIntCore rest).map Int.ofNat
  | '-' :: rest => (pyIntCore rest).map (fun n => -(n : Int))
  | l => (pyIntCore l).map Int.ofNat

/-! ## Record types and line parsers (`SubvolEntry`, `QGroupEntry`) -/

/-- Errors that abort the run: the script's own `ParseError` (with its
message, which embeds the offending stripped line), and the bare
`AssertionError` raised by the `assert` on the separator line, which carries
no message at all. -/
inductive PError where
  | parseError (msg : String)
  | assertionError
  deriving DecidableEq, Repr

/-- `SubvolEntry` of the source: one row of `btrfs sub list` output. -/
structure SubvolEntry where
  id : Int
  path : String
  deriving DecidableEq, Repr

/-- `SubvolEntry.from_line`: split the line, require token 1 to be `"ID"`,
token 2 an integer id, token 9 the path; every failure (wrong first token,
missing token, bad integer) is the same `ParseError`. -/
def SubvolEntry.from_line (line : String) : Except PError SubvolEntry :=
  let items := pySplitWs line
  match items.get? 0, items.get? 1, items.get? 8 with
  | some t0, some t1, some t8 =>
    if t0 = "ID" then
      match pyInt t1 with
      | some n => .ok ⟨n, t8⟩
      | none => .error (.parseError ("Not a valid subvol entry: " ++ line))
    else .error (.parseError ("Not a valid subvol entry: " ++ line))
  | _, _, _ => .error (.parseError ("Not a valid subvol entry: " ++ line))

/-- `QGroupEntry` of the source: one row of the qgroup accounting table. -/
structure QGroupEntry where
  qgroupid : String
  rfer : Int
  excl : Int
  parent : Option String
  deriving DecidableEq, Repr

/-- The `id` property of `QGroupEntry`. -/
def QGroupEntry.id (e : QGroupEntry) : String := e.qgroupid

/-- `QGroupEntry.from_line`: exactly four whitespace tokens
`(qgroupid, rfer, excl, parent)`; `rfer` and `excl` integers; a parent equal
to the sentinel `"---"` means no parent. -/
def QGroupEntry.from_line (line : String) : Except PError QGroupEntry :=
  match pySplitWs line with
  | [q, r, x, p] =>
    match pyInt r, pyInt x with
    | some rv, some xv =>
      .ok ⟨q, rv, xv, if p = "---" then none else some p⟩
    | _, _ => .error (.parseError ("Not a valid qgroup line: " ++ line))
  | _ => .error (.parseError ("Not a valid qgroup line: " ++ line))

/-- `QGroupEntry.get_sort_key`: decompose the id at the first `'/'`; when both
halves are digit strings the key is `(level, num, id)`, otherwise
`(-1, 0, id)`. -/
def QGroupEntry.get_sort_key (e : QGroupEntry) : Int × Int × String :=
  match splitSlashOnce e.qgroupid.data with
  | some (a, b) =>
    if pyIsDigit ⟨a⟩ && pyIsDigit ⟨b⟩ then
      ((strToNat ⟨a⟩ : Int), (strToNat ⟨b⟩ : Int), e.qgroupid)
    else (-1, 0, e.qgroupid)
  | none => (-1, 0, e.qgroupid)

/-- `QGroupEntry.subvol_id`: the first two components of the sort key are
inspected; a zero level part yields the numeric part as the subvolume id. -/
def QGroupEntry.subvol_id (e : QGroupEntry) : Option Int :=
  match e.get_sort_key with
  | (id1, id2, _) => if id1 = 0 then some id2 else none

/-- A parsed line of input: either record type, preserving input order. -/
abbrev ParsedEntry := Sum SubvolEntry QGroupEntry

/-- The header the first line must split to (`QGroupEntry._fields`). -/
def headerFields : List String := ["qgroupid", "rfer", "excl", "parent"]

/-- The `assert set(line) == set(['-', ' '])` on input line 2: the character
set of the (stripped) line must be exactly `{'-', ' '}` — every character is a
dash or a space, and both actually occur. -/
def pySetEqDashSpace (s : List Char) : Bool :=
  s.all (fun c => c = '-' || c = ' ') && s.contains '-' && s.contains ' '

/-- Worker for `parse_lines`, carrying the 1-based line number. -/
def parseLinesGo : List String → Nat → Except PError (List ParsedEntry)
  | [], _ => .ok []
  | raw :: rest, n =>
    let line := pyStrip raw
    if n = 1 then
      if pySplitWs line = headerFields then parseLinesGo rest 2
      else .error (.parseError ("Invalid qgroup data header: " ++ line))
    else if n = 2 then
      if pySetEqDashSpace line.data then parseLinesGo rest 3
      else .error .assertionError
    else
      match
        (if pyStartswith line "ID" then (SubvolEntry.from_line line).map Sum.inl
         else (QGroupEntry.from_line line).map Sum.inr) with
      | .ok e => (parseLinesGo rest (n + 1)).map (fun l => e :: l)
      | .error err => .error err

/-- `parse_lines` of the source. The Python generator is lazy, but `main`
fully materialises it with `list(...)` before producing any output, so the
strict embedding is observation-equivalent. -/
def parseLines (lines : List String) : Except PError (List ParsedEntry) :=
  parseLinesGo lines 1

/-! ## The sort key order (Python tuple comparison) -/

/-- Three-way comparison of `Int`, as Python compares tuple components. -/
def intCmp (a b : Int) : Ordering :=
  if a < b then .lt else if b < a then .gt else .eq

/-- Three-way comparison of `Char` by code point, as Python compares the
characters of strings. -/
def charCmp (a b : Char) : Ordering :=
  if a.toNat < b.toNat then .lt else if b.toNat < a.toNat then .gt else .eq

/-- Lexicographic three-way comparison of character lists: Python string
comparison. -/
def strCmp : List Char → List Char → Ordering
  | [], [] => .eq
  | [], _ :: _ => .lt
  | _ :: _, [] => .gt
  | a :: as, b :: bs =>
    match charCmp a b with
    | .eq => strCmp as bs
    | o => o

/-- Lexicographic three-way comparison of sort keys `(Int, Int, str)`:
Python tuple comparison. -/
def keyCmp (k1 k2 : Int × Int × String) : Ordering :=
  match intCmp k1.1 k2.1 with
  | .eq =>
    match intCmp k1.2.1 k2.2.1 with
    | .eq => strCmp k1.2.2.data k2.2.2.data
    | o => o
  | o => o

/-- Non-strict key order `k1 ≤ k2` (not `k2 < k1`), the order `sorted` with a
key function establishes. -/
def keyLeB (k1 k2 : Int × Int × String) : Bool :=
  match keyCmp k1 k2 with
  | .gt => false
  | _ => true

/-- Non-strict lexicographic string order, for stating the ordering of
non-composite ids. -/
def strLeB (a b : String) : Bool :=
  match strCmp a.data b.data with
  | .gt => false
  | _ => true

/-- The sibling order used by `sorted(values, key=QGroupEntry.get_sort_key)`. -/
abbrev keyRel (a b : QGroupEntry) : Prop :=
  keyLeB a.get_sort_key b.get_sort_key = true

/-! ## Python dictionaries as insertion-ordered association lists -/

/-- Python `d[k] = v`: update the value in place if the key exists (keeping
its original position), else append a new pair. -/
def dinsert {κ α : Type} [DecidableEq κ] : List (κ × α) → κ → α → List (κ × α)
  | [], k, v => [(k, v)]
  | (k0, v0) :: rest, k, v =>
    if k0 = k then (k0, v) :: rest else (k0, v0) :: dinsert rest k v

/-- Python `d.get(k)` / `d[k]`-with-default: first (unique) binding of `k`. -/
def dlookup {κ α : Type} [DecidableEq κ] : List (κ × α) → κ → Option α
  | [], _ => none
  | (k0, v0) :: rest, k => if k0 = k then some v0 else dlookup rest k

/-- Python `d.values()` in insertion order of the keys. -/
def dvalues {κ α : Type} (d : List (κ × α)) : List α := d.map (fun kv => kv.2)

/-- `result.setdefault(k, []).append(v)` of the source: append `v` to the list
bound to `k`, first binding the fresh key to `[v]` (at the end, where Python
inserts new keys). -/
def cmAppend {κ : Type} [DecidableEq κ] :
    List (κ × List QGroupEntry) → κ → QGroupEntry → List (κ × List QGroupEntry)
  | [], k, v => [(k, [v])]
  | (k0, vs) :: rest, k, v =>
    if k0 = k then (k0, vs ++ [v]) :: rest else (k0, vs) :: cmAppend rest k v

/-- `self._children_map.get(key, [])`. -/
def cmGet (m : List (Option String × List QGroupEntry)) (k : Option String) :
    List QGroupEntry :=
  (dlookup m k).getD []

/-! ## `QGroupTree` -/

/-- `QGroupTreeItem` of the source: an entry paired with its depth. -/
structure QGroupTreeItem where
  entry : QGroupEntry
  level : Nat
  deriving DecidableEq, Repr

/-- `QGroupTree._make_children_map`: group the entries by their `parent`
field in one pass, then sort every sibling list by the sort key. -/
def make_children_map (entries : List QGroupEntry) :
    List (Option String × List QGroupEntry) :=
  (entries.foldl (fun m e => cmAppend m e.parent e) []).map
    (fun kv => (kv.1, List.insertionSort keyRel kv.2))

/-- `QGroupTree`: the id → entry dictionary, the parent → sorted-children
dictionary, and the root list. -/
structure QGroupTree where
  entries : List (String × QGroupEntry)
  children_map : List (Option String × List QGroupEntry)
  roots : List QGroupEntry
  deriving Repr

/-- `QGroupTree.__init__`: `{x.id: x for x in entries}` (last write wins),
children map over the dictionary's values, roots = children of `None`. -/
def QGroupTree.build (es : List QGroupEntry) : QGroupTree :=
  let d := es.foldl (fun m e => dinsert m e.qgroupid e) []
  let cm := make_children_map (dvalues d)
  ⟨d, cm, cmGet cm none⟩

/-- The deduplicated entry list a tree was built over. -/
def QGroupTree.vals (t : QGroupTree) : List QGroupEntry := dvalues t.entries

/-- `QGroupTree._walk` with explicit fuel: emit the node, then recurse into
`children_map.get(entry.id, [])` at `level + 1`. Fuel `0` returns nothing;
the development proves the output is identical for every fuel large enough,
which renders the termination of the Python recursion. -/
def walkFuel (cm : List (Option String × List QGroupEntry)) :
    Nat → QGroupEntry → Nat → List QGroupTreeItem
  | 0, _, _ => []
  | fuel + 1, e, level =>
    ⟨e, level⟩ ::
      ((cmGet cm (some e.qgroupid)).map (fun c => walkFuel cm fuel c (level + 1))).flatten

/-- `QGroupTree.__iter__` at a given fuel: walk each root at level 0. -/
def treeItemsFuel (t : QGroupTree) (fuel : Nat) : List QGroupTreeItem :=
  t.roots.flatMap (fun r => walkFuel t.children_map fuel r 0)

/-- `QGroupTree.__iter__`: fuel `entries + 1` is sufficient (proved below). -/
def treeItems (t : QGroupTree) : List QGroupTreeItem :=
  treeItemsFuel t (t.entries.length + 1)

/-! ## Parent chains -/

/-- The unique entry of `vs` with a given id, if any (ids of a tree's values
are distinct, so `find?` is the lookup `self.entries[...]` would perform). -/
def findE (vs : List QGroupEntry) (i : String) : Option QGroupEntry :=
  vs.find? (fun d => d.qgroupid = i)

/-- One hop up the parent chain: the entry the `parent` field names. -/
def upStep (vs : List QGroupEntry) (d : QGroupEntry) : Option QGroupEntry :=
  match d.parent with
  | none => none
  | some p => findE vs p

/-- `m` hops up the parent chain. -/
def upN (vs : List QGroupEntry) : Nat → QGroupEntry → Option QGroupEntry
  | 0, e => some e
  | m + 1, e =>
    match upStep vs e with
    | none => none
    | some d => upN vs m d

/-- Number of parent hops from an entry to a root (an entry with no parent),
with fuel: `none` when the chain does not reach a root within the fuel. -/
def hopsFuel (vs : List QGroupEntry) : Nat → QGroupEntry → Option Nat
  | 0, _ => none
  | fuel + 1, e =>
    match e.parent with
    | none => some 0
    | some p =>
      match findE vs p with
      | none => none
      | some d => (hopsFuel vs fuel d).map (fun h => h + 1)

/-! ## The report (`main`) -/

/-- One printed line of the report, kept structured: the entry rendered, its
indentation depth, and the `path=` suffix. (The `str(entry)` float formatting
of the byte counts is presentation only and is not modelled.) -/
structure ReportLine where
  entry : QGroupEntry
  level : Nat
  path : String
  deriving DecidableEq, Repr

/-- Lines 153–155 of the source: `subvolmap.get(subvol_id) if subvol_id else
None`, then `getattr(subvol, 'path', '')`. Note Python truthiness: a
`subvol_id` of `0` is falsy, so the lookup is skipped exactly when the id is
absent or zero. -/
def subvolPathFor (svmap : List (Int × SubvolEntry)) (e : QGroupEntry) : String :=
  match e.subvol_id with
  | none => ""
  | some n =>
    if n = 0 then ""
    else
      match dlookup svmap n with
      | some sv => sv.path
      | none => ""

/-- The loop of `main`: one report line per traversal item whose `rfer` is
non-zero. -/
def report (svmap : List (Int × SubvolEntry)) (t : QGroupTree) : List ReportLine :=
  (treeItems t).filterMap (fun it =>
    if it.entry.rfer ≠ 0 then some ⟨it.entry, it.level, subvolPathFor svmap it.entry⟩
    else none)

/-- `main`: parse everything, split the two record kinds, build the subvolume
dictionary (last write wins) and the tree, and emit the report. -/
def mainRun (lines : List String) : Except PError (List ReportLine) :=
  match parseLines lines with
  | .error e => .error e
  | .ok entries =>
    let svmap :=
      (entries.filterMap (fun x => match x with | .inl s => some s | .inr _ => none)).foldl
        (fun m s => dinsert m s.id s) []
    let qs := entries.filterMap (fun x => match x with | .inl _ => none | .inr q => some q)
    .ok (report svmap (QGroupTree.build qs))

/-! ## Order lemmas for the sort key -/

theorem charCmp_eq_iff (a b : Char) : charCmp a b = .eq ↔ a = b := by
  constructor
  · intro h
    unfold charCmp at h
    by_cases h1 : a.toNat < b.toNat
    · rw [if_pos h1] at h
      cases h
    · rw [if_neg h1] at h
      by_cases h2 : b.toNat < a.toNat
      · rw [if_pos h2] at h
        cases h
      · have hn : a.toNat = b.toNat := by omega
        exact Char.ext (UInt32.ext hn)
  · intro h
    subst h
    unfold charCmp
    split_ifs with h1 h2 <;> first | rfl | omega

theorem charCmp_swap (a b : Char) : charCmp a b = (charCmp b a).swap := by
  unfold charCmp
  split_ifs <;> first | rfl | omega

theorem charCmp_lt_trans {a b c : Char} (h1 : charCmp a b = .lt)
    (h2 : charCmp b c = .lt) : charCmp a c = .lt := by
  unfold charCmp at *
  split_ifs at * <;> first | rfl | omega | simp_all

theorem strCmp_eq_iff : ∀ (l1 l2 : List Char), strCmp l1 l2 = .eq ↔ l1 = l2
  | [], [] => by simp [strCmp]
  | [], _ :: _ => by simp [strCmp]
  | _ :: _, [] => by simp [strCmp]
  | a :: as, b :: bs => by
    simp only [strCmp]
    rcases h : charCmp a b with _ | _ | _
    · constructor
      · intro hcontra; cases hcontra
      · intro heq
        rw [List.cons.injEq] at heq
        rw [heq.1, (charCmp_eq_iff b b).mpr rfl] at h
        cases h
    · have hab : a = b := (charCmp_eq_iff a b).mp h
      subst hab
      rw [strCmp_eq_iff as bs]
      simp
    · constructor
      · intro hcontra; cases hcontra
      · intro heq
        rw [List.cons.injEq] at heq
        rw [heq.1, (charCmp_eq_iff b b).mpr rfl] at h
        cases h

theorem strCmp_swap : ∀ (l1 l2 : List Char), strCmp l1 l2 = (strCmp l2 l1).swap
  | [], [] => rfl
  | [], _ :: _ => rfl
  | _ :: _, [] => rfl
  | a :: as, b :: bs => by
    simp only [strCmp]
    rw [charCmp_swap a b]
    rcases charCmp b a with _ | _ | _
    · rfl
    · exact strCmp_swap as bs
    · rfl

theorem strCmp_lt_trans : ∀ {l1 l2 l3 : List Char}, strCmp l1 l2 = .lt →
    strCmp l2 l3 = .lt → strCmp l1 l3 = .lt
  | [], [], _ :: _, h1, _ => by cases h1
  | [], _ :: _, [], _, h2 => by cases h2
  | [], _ :: _, _ :: _, _, _ => rfl
  | _ :: _, [], _, h1, _ => by cases h1
  | _ :: _, _ :: _, [], _, h2 => by cases h2
  | a :: as, b :: bs, c :: cs, h1, h2 => by
    simp only [strCmp] at *
    rcases hab : charCmp a b with _ | _ | _ <;> rw [hab] at h1 <;>
      [skip; skip; exact (Ordering.noConfusion h1)]
    · rcases hbc : charCmp b c with _ | _ | _ <;> rw [hbc] at h2
      · rw [charCmp_lt_trans hab hbc]
      · have hb : b = c := (charCmp_eq_iff b c).mp hbc
        subst hb
        rw [hab]
      · exact Ordering.noConfusion h2
    · have hb : a = b := (charCmp_eq_iff a b).mp hab
      subst hb
      rcases hbc : charCmp a c with _ | _ | _ <;> rw [hbc] at h2 <;>
        first
        | rfl
        | exact @strCmp_lt_trans as bs cs h1 h2
        | exact Ordering.noConfusion h2

theorem intCmp_eq_iff (a b : Int) : intCmp a b = .eq ↔ a = b := by
  unfold intCmp
  split_ifs with h1 h2 <;> constructor <;> intro h <;>
    first | rfl | omega | cases h

theorem intCmp_swap (a b : Int) : intCmp a b = (intCmp b a).swap := by
  unfold intCmp
  split_ifs <;> first | rfl | omega

theorem intCmp_lt_trans {a b c : Int} (h1 : intCmp a b = .lt)
    (h2 : intCmp b c = .lt) : intCmp a c = .lt := by
  unfold intCmp at *
  split_ifs at * <;> first | rfl | omega | simp_all

theorem keyCmp_eq_iff (k1 k2 : Int × Int × String) : keyCmp k1 k2 = .eq ↔ k1 = k2 := by
  obtain ⟨a1, b1, s1⟩ := k1
  obtain ⟨a2, b2, s2⟩ := k2
  simp only [keyCmp]
  constructor
  · intro h
    rcases hi : intCmp a1 a2 with _ | _ | _ <;> rw [hi] at h
    · exact Ordering.noConfusion h
    · rcases hj : intCmp b1 b2 with _ | _ | _ <;> rw [hj] at h
      · exact Ordering.noConfusion h
      · have e1 : a1 = a2 := (intCmp_eq_iff a1 a2).mp hi
        have e2 : b1 = b2 := (intCmp_eq_iff b1 b2).mp hj
        have e3 : s1 = s2 := String.ext ((strCmp_eq_iff s1.data s2.data).mp h)
        simp [e1, e2, e3]
      · exact Ordering.noConfusion h
    · exact Ordering.noConfusion h
  · intro h
    obtain ⟨e1, e2⟩ := Prod.mk.injEq .. ▸ h
    obtain ⟨e3, e4⟩ := Prod.mk.injEq .. ▸ e2
    subst e1; subst e3; subst e4
    rw [(intCmp_eq_iff a1 a1).mpr rfl, (intCmp_eq_iff b1 b1).mpr rfl]
    exact (strCmp_eq_iff s1.data s1.data).mpr rfl

theorem keyCmp_swap (k1 k2 : Int × Int × String) : keyCmp k1 k2 = (keyCmp k2 k1).swap := by
  obtain ⟨a1, b1, s1⟩ := k1
  obtain ⟨a2, b2, s2⟩ := k2
  simp only [keyCmp]
  rw [intCmp_swap a1 a2]
  rcases intCmp a2 a1 with _ | _ | _
  · rfl
  · rw [intCmp_swap b1 b2]
    rcases intCmp b2 b1 with _ | _ | _
    · rfl
    · exact strCmp_swap s1.data s2.data
    · rfl
  · rfl

theorem keyCmp_lt_trans {k1 k2 k3 : Int × Int × String} (h1 : keyCmp k1 k2 = .lt)
    (h2 : keyCmp k2 k3 = .lt) : keyCmp k1 k3 = .lt := by
  obtain ⟨a1, b1, s1⟩ := k1
  obtain ⟨a2, b2, s2⟩ := k2
  obtain ⟨a3, b3, s3⟩ := k3
  simp only [keyCmp] at *
  rcases hi : intCmp a1 a2 with _ | _ | _ <;> rw [hi] at h1 <;>
    first
    | exact Ordering.noConfusion h1
    | (rcases hj : intCmp a2 a3 with _ | _ | _ <;> rw [hj] at h2 <;>
        first
        | exact Ordering.noConfusion h2
        | rw [intCmp_lt_trans hi hj]
        | (have e : a2 = a3 := (intCmp_eq_iff a2 a3).mp hj
           subst e
           rw [hi]))
    | (have e : a1 = a2 := (intCmp_eq_iff a1 a2).mp hi
       subst e
       rcases hj : intCmp a1 a3 with _ | _ | _ <;> rw [hj] at h2 <;>
        first
        | rfl
        | exact Ordering.noConfusion h2
        | (rcases hk : intCmp b1 b2 with _ | _ | _ <;> rw [hk] at h1 <;>
            first
            | exact Ordering.noConfusion h1
            | (rcases hl : intCmp b2 b3 with _ | _ | _ <;> rw [hl] at h2 <;>
                first
                | exact Ordering.noConfusion h2
                | rw [intCmp_lt_trans hk hl]
                | (have e : b2 = b3 := (intCmp_eq_iff b2 b3).mp hl
                   subst e
                   rw [hk]))
            | (have e : b1 = b2 := (intCmp_eq_iff b1 b2).mp hk
               subst e
               rcases hl : intCmp b1 b3 with _ | _ | _ <;> rw [hl] at h2 <;>
                first
                | rfl
                | exact Ordering.noConfusion h2
                | exact strCmp_lt_trans h1 h2)))

theorem keyLeB_total (k1 k2 : Int × Int × String) :
    keyLeB k1 k2 = true ∨ keyLeB k2 k1 = true := by
  unfold keyLeB
  rcases h : keyCmp k1 k2 with _ | _ | _ <;>
    first
    | exact Or.inl rfl
    | (refine Or.inr ?_
       have hs := keyCmp_swap k1 k2
       rw [h] at hs
       rcases h2 : keyCmp k2 k1 with _ | _ | _ <;> rw [h2] at hs <;>
         first
         | rfl
         | cases hs)

theorem keyLeB_trans {k1 k2 k3 : Int × Int × String} (h1 : keyLeB k1 k2 = true)
    (h2 : keyLeB k2 k3 = true) : keyLeB k1 k3 = true := by
  unfold keyLeB at *
  rcases c12 : keyCmp k1 k2 with _ | _ | _ <;> rw [c12] at h1 <;>
    first
    | exact Bool.noConfusion h1
    | (rcases c23 : keyCmp k2 k3 with _ | _ | _ <;> rw [c23] at h2 <;>
        first
        | exact Bool.noConfusion h2
        | rw [keyCmp_lt_trans c12 c23]
        | (have e : k2 = k3 := (keyCmp_eq_iff k2 k3).mp c23
           subst e
           rw [c12]))
    | (have e : k1 = k2 := (keyCmp_eq_iff k1 k2).mp c12
       subst e
       exact h2)

instance : IsTotal QGroupEntry keyRel :=
  ⟨fun a b => keyLeB_total a.get_sort_key b.get_sort_key⟩

instance : IsTrans QGroupEntry keyRel :=
  ⟨fun _ _ _ h1 h2 => keyLeB_trans h1 h2⟩

/-! ## Dictionary lemmas -/

theorem dlookup_dinsert {κ α : Type} [DecidableEq κ] :
    ∀ (d : List (κ × α)) (k : κ) (v : α) (i : κ),
      dlookup (dinsert d k v) i = if k = i then some v else dlookup d i
  | [], k, v, i => by
    by_cases h : k = i <;> simp [dinsert, dlookup, h]
  | (k0, v0) :: rest, k, v, i => by
    by_cases h0 : k0 = k
    · subst h0
      simp only [dinsert, if_pos rfl]
      by_cases hi : k0 = i
      · subst hi
        simp [dlookup]
      · simp [dlookup, hi]
    · simp only [dinsert, if_neg h0]
      by_cases hi : k0 = i
      · subst hi
        have hk : ¬ k = k0 := fun h => h0 h.symm
        simp [dlookup, hk]
      · simp only [dlookup, if_neg hi]
        exact dlookup_dinsert rest k v i

/-- Keys of an association list. -/
def dkeys {κ α : Type} (d : List (κ × α)) : List κ := d.map (fun kv => kv.1)

theorem dkeys_dinsert {κ α : Type} [DecidableEq κ] :
    ∀ (d : List (κ × α)) (k : κ) (v : α),
      dkeys (dinsert d k v) = if k ∈ dkeys d then dkeys d else dkeys d ++ [k]
  | [], k, v => by simp [dinsert, dkeys]
  | (k0, v0) :: rest, k, v => by
    by_cases h0 : k0 = k
    · subst h0
      simp [dinsert, dkeys]
    · have hne : ¬ k = k0 := fun h => h0 h.symm
      have ih := dkeys_dinsert rest k v
      simp only [dkeys] at ih ⊢
      simp only [dinsert, if_neg h0, List.map_cons]
      by_cases hk : k ∈ List.map (fun kv => kv.1) rest
      · rw [if_pos (by simp [List.mem_cons, hk]), ih, if_pos hk]
      · rw [if_neg (by simp [List.mem_cons, hne, hk]), ih, if_neg hk]
        simp

/-- Membership in an updated dictionary comes from the old dictionary or is
the new pair. -/
theorem mem_dinsert {κ α : Type} [DecidableEq κ]
    (d : List (κ × α)) (k : κ) (v : α) (kv : κ × α) (h : kv ∈ dinsert d k v) :
    kv ∈ d ∨ kv = (k, v) := by
  induction d with
  | nil =>
    simp only [dinsert, List.mem_singleton] at h
    exact Or.inr h
  | cons hd tl ih =>
    obtain ⟨k0, v0⟩ := hd
    by_cases h0 : k0 = k
    · subst h0
      simp [dinsert] at h
      rcases h with h | h
      · exact Or.inr h
      · exact Or.inl (List.mem_cons_of_mem _ h)
    · simp only [dinsert, if_neg h0, List.mem_cons] at h
      rcases h with h | h
      · exact Or.inl (List.mem_cons.mpr (Or.inl h))
      · rcases ih h with h' | h'
        · exact Or.inl (List.mem_cons.mpr (Or.inr h'))
        · exact Or.inr h'

/-- The id → entry dictionary built by `QGroupTree.__init__`. -/
def entriesDict (es : List QGroupEntry) : List (String × QGroupEntry) :=
  es.foldl (fun m e => dinsert m e.qgroupid e) []

/-- Every pair of the entries dictionary binds an id to an entry of the input
carrying exactly that id. -/
theorem entriesDict_pair_inv (es : List QGroupEntry) :
    ∀ kv ∈ entriesDict es, kv.2.qgroupid = kv.1 ∧ kv.2 ∈ es := by
  suffices h : ∀ (l : List QGroupEntry) (d : List (String × QGroupEntry)),
      (∀ kv ∈ d, kv.2.qgroupid = kv.1 ∧ (kv.2 ∈ es)) → (∀ e ∈ l, e ∈ es) →
      ∀ kv ∈ l.foldl (fun m e => dinsert m e.qgroupid e) d, kv.2.qgroupid = kv.1 ∧ kv.2 ∈ es by
    intro kv hkv
    exact h es [] (by simp) (fun _ he => he) kv hkv
  intro l
  induction l with
  | nil => intro d hd _ kv hkv; exact hd kv hkv
  | cons e tl ih =>
    intro d hd hl kv hkv
    refine ih (dinsert d e.qgroupid e) ?_ (fun x hx => hl x (List.mem_cons_of_mem _ hx)) kv hkv
    intro kv' hkv'
    rcases mem_dinsert d e.qgroupid e kv' hkv' with h' | h'
    · exact hd kv' h'
    · subst h'
      exact ⟨rfl, hl e (List.mem_cons_self _ _)⟩

/-- The keys of the entries dictionary are distinct. -/
theorem dkeys_entriesDict_nodup (es : List QGroupEntry) : (dkeys (entriesDict es)).Nodup := by
  suffices h : ∀ (l : List QGroupEntry) (d : List (String × QGroupEntry)),
      (dkeys d).Nodup → (dkeys (l.foldl (fun m e => dinsert m e.qgroupid e) d)).Nodup by
    exact h es [] (by simp [dkeys])
  intro l
  induction l with
  | nil => intro d hd; exact hd
  | cons e tl ih =>
    intro d hd
    refine ih _ ?_
    rw [dkeys_dinsert]
    split_ifs with h
    · exact hd
    · rw [List.nodup_append]
      refine ⟨hd, List.nodup_singleton _, ?_⟩
      intro a ha hb
      rw [List.mem_singleton] at hb
      subst hb
      exact h ha

/-- With distinct keys, a member pair is found by lookup. -/
theorem dlookup_of_mem {κ α : Type} [DecidableEq κ] :
    ∀ (d : List (κ × α)) (k : κ) (v : α),
      (dkeys d).Nodup → (k, v) ∈ d → dlookup d k = some v
  | [], k, v, _, h => by cases h
  | (k0, v0) :: rest, k, v, hn, h => by
    rcases List.mem_cons.mp h with h' | h'
    · obtain ⟨e1, e2⟩ := Prod.mk.injEq .. ▸ h'.symm
      subst e1; subst e2
      simp [dlookup]
    · have hk : ¬ k0 = k := by
        intro e
        subst e
        have : k0 ∈ dkeys rest := by
          simp only [dkeys, List.mem_map]
          exact ⟨(k0, v), h', rfl⟩
        simp only [dkeys, List.map_cons, List.nodup_cons] at hn
        exact hn.1 this
      simp only [dlookup, if_neg hk]
      refine dlookup_of_mem rest k v ?_ h'
      simp only [dkeys, List.map_cons, List.nodup_cons] at hn
      exact hn.2

/-- Lookup in the fold of `dinsert` over entries: the last entry with the
key's id wins, falling back to the accumulator. -/
theorem dlookup_entries_fold (es : List QGroupEntry) :
    ∀ (d : List (String × QGroupEntry)) (i : String),
      dlookup (es.foldl (fun m e => dinsert m e.qgroupid e) d) i
        = Option.or (es.reverse.find? (fun e => e.qgroupid = i)) (dlookup d i) := by
  induction es with
  | nil => intro d i; simp
  | cons e tl ih =>
    intro d i
    simp only [List.foldl_cons, List.reverse_cons]
    rw [ih (dinsert d e.qgroupid e) i, dlookup_dinsert]
    rw [List.find?_append]
    by_cases h : e.qgroupid = i
    · simp [h, Option.or_assoc]
    · simp [h, Option.or_assoc]

/-- `dlookup` in the entries dictionary finds the last entry with that id. -/
theorem dlookup_entriesDict (es : List QGroupEntry) (i : String) :
    dlookup (entriesDict es) i = es.reverse.find? (fun e => e.qgroupid = i) := by
  have := dlookup_entries_fold es [] i
  simpa [entriesDict, dlookup] using this

/-! ## Children map characterization -/

theorem cmGet_cmAppend {κ : Type} [DecidableEq κ] :
    ∀ (m : List (κ × List QGroupEntry)) (k : κ) (v : QGroupEntry) (i : κ),
      (dlookup (cmAppend m k v) i).getD []
        = if k = i then (dlookup m i).getD [] ++ [v] else (dlookup m i).getD []
  | [], k, v, i => by
    by_cases h : k = i <;> simp [cmAppend, dlookup, h]
  | (k0, vs) :: rest, k, v, i => by
    by_cases h0 : k0 = k
    · subst h0
      by_cases hi : k0 = i
      · subst hi
        simp [cmAppend, dlookup]
      · simp [cmAppend, dlookup, hi]
    · simp only [cmAppend, if_neg h0]
      by_cases hi : k0 = i
      · subst hi
        have hk : ¬ k = k0 := fun h => h0 h.symm
        simp [dlookup, hk]
      · simp only [dlookup, if_neg hi]
        exact cmGet_cmAppend rest k v i

/-- Grouping by parent, before sorting: the list grouped under a key is the
input subsequence with that parent, in input order. -/
theorem cmGet_group_fold (es : List QGroupEntry) :
    ∀ (m : List (Option String × List QGroupEntry)) (i : Option String),
      (dlookup (es.foldl (fun m e => cmAppend m e.parent e) m) i).getD []
        = (dlookup m i).getD [] ++ es.filter (fun e => e.parent = i) := by
  induction es with
  | nil => intro m i; simp
  | cons e tl ih =>
    intro m i
    simp only [List.foldl_cons]
    rw [ih (cmAppend m e.parent e) i, cmGet_cmAppend]
    by_cases h : e.parent = i
    · rw [if_pos h, List.filter_cons_of_pos (by simp [h])]
      simp
    · rw [if_neg h, List.filter_cons_of_neg (by simp [h])]

theorem dlookup_map_snd {κ α β : Type} [DecidableEq κ] (f : α → β) :
    ∀ (m : List (κ × α)) (i : κ),
      dlookup (m.map (fun kv => (kv.1, f kv.2))) i = (dlookup m i).map f
  | [], _ => rfl
  | (k0, v0) :: rest, i => by
    by_cases h : k0 = i
    · subst h
      simp [dlookup]
    · simp only [List.map_cons, dlookup, if_neg h]
      exact dlookup_map_snd f rest i

/-- The children map: under every key sits exactly the sorted list of entries
declaring that key as parent. -/
theorem cmGet_make_children_map (vs : List QGroupEntry) (i : Option String) :
    cmGet (make_children_map vs) i
      = List.insertionSort keyRel (vs.filter (fun e => e.parent = i)) := by
  unfold cmGet make_children_map
  rw [dlookup_map_snd]
  have hg := cmGet_group_fold vs [] i
  simp only [dlookup, Option.getD_none, List.nil_append] at hg
  rcases h : dlookup (vs.foldl (fun m e => cmAppend m e.parent e) []) i with _ | l
  · rw [h] at hg
    simp only [Option.getD_none] at hg
    rw [h]
    simp [← hg]
  · rw [h] at hg
    simp only [Option.getD_some] at hg
    rw [h]
    simp [hg]

theorem mem_children_iff (vs : List QGroupEntry) (i : Option String) (x : QGroupEntry) :
    x ∈ cmGet (make_children_map vs) i ↔ x ∈ vs ∧ x.parent = i := by
  rw [cmGet_make_children_map, List.mem_insertionSort, List.mem_filter]
  simp

/-! ## Properties of the deduplicated entry list -/

theorem vals_ids_eq_dkeys (es : List QGroupEntry) :
    (dvalues (entriesDict es)).map (fun e => e.qgroupid) = dkeys (entriesDict es) := by
  unfold dvalues dkeys
  rw [List.map_map]
  exact List.map_congr_left (fun kv hkv => (entriesDict_pair_inv es kv hkv).1)

theorem vals_ids_nodup (es : List QGroupEntry) :
    ((dvalues (entriesDict es)).map (fun e => e.qgroupid)).Nodup := by
  rw [vals_ids_eq_dkeys]
  exact dkeys_entriesDict_nodup es

theorem vals_subset (es : List QGroupEntry) :
    ∀ x ∈ dvalues (entriesDict es), x ∈ es := by
  intro x hx
  simp only [dvalues, List.mem_map] at hx
  obtain ⟨kv, hkv, he⟩ := hx
  exact he ▸ (entriesDict_pair_inv es kv hkv).2

theorem dlookup_of_mem_vals (es : List QGroupEntry) :
    ∀ x ∈ dvalues (entriesDict es), dlookup (entriesDict es) x.qgroupid = some x := by
  intro x hx
  simp only [dvalues, List.mem_map] at hx
  obtain ⟨kv, hkv, he⟩ := hx
  have hk : kv.1 = x.qgroupid := by
    rw [← he]
    exact ((entriesDict_pair_inv es kv hkv).1).symm
  have : (x.qgroupid, x) ∈ entriesDict es := by
    have : kv = (x.qgroupid, x) := by
      obtain ⟨k0, v0⟩ := kv
      simp only at hk he
      rw [hk, he]
    exact this ▸ hkv
  exact dlookup_of_mem _ _ _ (dkeys_entriesDict_nodup es) this

/-- Distinct ids: two deduplicated entries with the same id are equal. -/
theorem vals_id_inj (es : List QGroupEntry) {a b : QGroupEntry}
    (ha : a ∈ dvalues (entriesDict es)) (hb : b ∈ dvalues (entriesDict es))
    (hid : a.qgroupid = b.qgroupid) : a = b := by
  have h1 := dlookup_of_mem_vals es a ha
  have h2 := dlookup_of_mem_vals es b hb
  rw [hid] at h1
  rw [h1] at h2
  exact Option.some.injEq .. ▸ h2

/-- `find?` by id returns the member itself when ids are distinct. -/
theorem findE_self :
    ∀ (vs : List QGroupEntry), ((vs.map (fun e => e.qgroupid)).Nodup) →
      ∀ e ∈ vs, findE vs e.qgroupid = some e
  | [], _, e, he => by cases he
  | d :: tl, hn, e, he => by
    simp only [List.map_cons, List.nodup_cons] at hn
    rcases List.mem_cons.mp he with h | h
    · subst h
      simp [findE, List.find?]
    · have hne : ¬ (d.qgroupid = e.qgroupid) := by
        intro hcontra
        exact hn.1 (hcontra ▸ List.mem_map_of_mem (fun x => x.qgroupid) h)
      unfold findE
      rw [List.find?_cons_of_neg _ (by simpa using hne)]
      exact findE_self tl hn.2 e h

theorem findE_some {vs : List QGroupEntry} {i : String} {d : QGroupEntry}
    (h : findE vs i = some d) : d ∈ vs ∧ d.qgroupid = i := by
  unfold findE at h
  refine ⟨List.mem_of_find?_eq_some h, ?_⟩
  have := List.find?_some h
  simpa using this

/-! ## Parent-chain lemmas -/

theorem upN_one (vs : List QGroupEntry) (d : QGroupEntry) :
    upN vs 1 d = upStep vs d := by
  unfold upN
  rcases upStep vs d with _ | x
  · rfl
  · rfl

theorem upN_succ_none {vs : List QGroupEntry} {e : QGroupEntry} (m : Nat)
    (h : upStep vs e = none) : upN vs (m + 1) e = none := by
  show (match upStep vs e with | none => none | some x => upN vs m x) = none
  rw [h]

theorem upN_succ_some {vs : List QGroupEntry} {e d : QGroupEntry} (m : Nat)
    (h : upStep vs e = some d) : upN vs (m + 1) e = upN vs m d := by
  show (match upStep vs e with | none => none | some x => upN vs m x) = upN vs m d
  rw [h]

theorem upN_add (vs : List QGroupEntry) (b : Nat) :
    ∀ (a : Nat) (e : QGroupEntry),
      upN vs (a + b) e = (upN vs a e).bind (fun d => upN vs b d) := by
  intro a
  induction a with
  | zero => intro e; simp [upN]
  | succ a ih =>
    intro e
    rw [Nat.succ_add]
    rcases h : upStep vs e with _ | d
    · rw [upN_succ_none (a + b) h, upN_succ_none a h]
      rfl
    · rw [upN_succ_some (a + b) h, upN_succ_some a h, ih d]

theorem upN_succ_far (vs : List QGroupEntry) (m : Nat) (e : QGroupEntry) :
    upN vs (m + 1) e = (upN vs m e).bind (upStep vs) := by
  rw [upN_add vs 1 m e]
  rcases upN vs m e with _ | d
  · rfl
  · simp [upN_one]

/-! ## Simple walk lemmas -/

/-- Every entry visited below `e` is a deduplicated entry, and is either `e`
itself or carries a parent pointer naming an existing id. -/
theorem walk_entry_shape (vs : List QGroupEntry) :
    ∀ (fuel : Nat) (e : QGroupEntry) (l : Nat) (it : QGroupTreeItem),
      e ∈ vs →
      it ∈ walkFuel (make_children_map vs) fuel e l →
      it.entry ∈ vs ∧
        (it.entry = e ∨ ∃ d, d ∈ vs ∧ it.entry.parent = some d.qgroupid) := by
  intro fuel
  induction fuel with
  | zero => intro e l it _ hit; cases hit
  | succ fuel ih =>
    intro e l it he hit
    simp only [walkFuel, List.mem_cons] at hit
    rcases hit with hit | hit
    · subst hit
      exact ⟨he, Or.inl rfl⟩
    · rw [List.mem_flatten] at hit
      obtain ⟨lst, hlst, hmem⟩ := hit
      rw [List.mem_map] at hlst
      obtain ⟨c, hc, hlst'⟩ := hlst
      obtain ⟨hcv, hcp⟩ := (mem_children_iff vs (some e.qgroupid) c).mp hc
      subst hlst'
      obtain ⟨hin, hshape⟩ := ih c (l + 1) it hcv hmem
      refine ⟨hin, ?_⟩
      rcases hshape with h | h
      · right
        exact ⟨e, he, h ▸ hcp⟩
      · right
        exact h

theorem upStep_none {vs : List QGroupEntry} {z : QGroupEntry}
    (h : z.parent = none) : upStep vs z = none := by
  unfold upStep
  rw [h]

theorem upStep_eq {vs : List QGroupEntry} {z : QGroupEntry} {p : String}
    (h : z.parent = some p) : upStep vs z = findE vs p := by
  unfold upStep
  rw [h]

theorem hopsFuel_root {vs : List QGroupEntry} {e : QGroupEntry} (f : Nat)
    (h : e.parent = none) : hopsFuel vs (f + 1) e = some 0 := by
  show (match e.parent with
    | none => some 0
    | some p =>
      match findE vs p with
      | none => none
      | some d => (hopsFuel vs f d).map (fun h => h + 1)) = some 0
  rw [h]

theorem hopsFuel_step {vs : List QGroupEntry} {e d : QGroupEntry} {p : String} (f : Nat)
    (hp : e.parent = some p) (hd : findE vs p = some d) :
    hopsFuel vs (f + 1) e = (hopsFuel vs f d).map (fun h => h + 1) := by
  show (match e.parent with
    | none => some 0
    | some p =>
      match findE vs p with
      | none => none
      | some d => (hopsFuel vs f d).map (fun h => h + 1)) = _
  rw [hp]
  show (match findE vs p with
    | none => none
    | some d => (hopsFuel vs f d).map (fun h => h + 1)) = _
  rw [hd]

theorem walkFuel_succ (cm : List (Option String × List QGroupEntry))
    (f : Nat) (e : QGroupEntry) (l : Nat) :
    walkFuel cm (f + 1) e l
      = ⟨e, l⟩ :: ((cmGet cm (some e.qgroupid)).map (fun c => walkFuel cm f c (l + 1))).flatten :=
  rfl

/-- Members of a list with distinct images are determined by their image. -/
theorem nodup_map_inj {α β : Type} (f : α → β) :
    ∀ (vs : List α), ((vs.map f).Nodup) →
      ∀ a ∈ vs, ∀ b ∈ vs, f a = f b → a = b
  | [], _, a, ha, _, _, _ => by cases ha
  | d :: tl, hn, a, ha, b, hb, hfab => by
    simp only [List.map_cons, List.nodup_cons] at hn
    rcases List.mem_cons.mp ha with ha' | ha' <;> rcases List.mem_cons.mp hb with hb' | hb'
    · rw [ha', hb']
    · subst ha'
      exact absurd (hfab ▸ List.mem_map_of_mem f hb') hn.1
    · subst hb'
      exact absurd (hfab ▸ List.mem_map_of_mem f ha') hn.1
    · exact nodup_map_inj f tl hn.2 a ha' b hb' hfab

/-- A parent chain starting inside the ancestor id set stays inside it. -/
theorem chain_in_S (vs : List QGroupEntry) (S : Finset String)
    (hcl : ∀ d, d ∈ vs → d.qgroupid ∈ S → d.parent = none ∨ ∃ p ∈ S, d.parent = some p) :
    ∀ (j : Nat) (z y : QGroupEntry), z ∈ vs → z.qgroupid ∈ S →
      upN vs j z = some y → y ∈ vs ∧ y.qgroupid ∈ S := by
  intro j
  induction j with
  | zero =>
    intro z y hz hzS h
    simp only [upN, Option.some.injEq] at h
    subst h
    exact ⟨hz, hzS⟩
  | succ j ih =>
    intro z y hz hzS h
    rcases hp : z.parent with _ | p
    · rw [upN_succ_none j (upStep_none hp)] at h
      cases h
    · rcases hf : findE vs p with _ | d
      · rw [upN_succ_none j (by rw [upStep_eq hp]; exact hf)] at h
        cases h
      · rw [upN_succ_some j (by rw [upStep_eq hp]; exact hf)] at h
        obtain ⟨hdv, hdi⟩ := findE_some hf
        have hpS : p ∈ S := by
          rcases hcl z hz hzS with hnone | ⟨q, hqS, hq⟩
          · rw [hnone] at hp; cases hp
          · rw [hq] at hp
            exact (Option.some.injEq .. ▸ hp) ▸ hqS
        exact ih d y hdv (hdi ▸ hpS) h

/-- A parent chain from a node satisfying the walk invariant reaches only the
node itself or ids already in the ancestor set. -/
theorem up_from_inv (vs : List QGroupEntry) (S : Finset String) (e : QGroupEntry)
    (hcl : ∀ d, d ∈ vs → d.qgroupid ∈ S → d.parent = none ∨ ∃ p ∈ S, d.parent = some p)
    (hpar : e.parent = none ∨ ∃ p ∈ S, e.parent = some p) :
    ∀ (m : Nat) (y : QGroupEntry), upN vs m e = some y →
      y = e ∨ (y ∈ vs ∧ y.qgroupid ∈ S) := by
  intro m y h
  rcases m with _ | j
  · simp only [upN, Option.some.injEq] at h
    exact Or.inl h.symm
  · rcases hp : e.parent with _ | p
    · rw [upN_succ_none j (upStep_none hp)] at h
      cases h
    · rcases hf : findE vs p with _ | d
      · rw [upN_succ_none j (by rw [upStep_eq hp]; exact hf)] at h
        cases h
      · rw [upN_succ_some j (by rw [upStep_eq hp]; exact hf)] at h
        obtain ⟨hdv, hdi⟩ := findE_some hf
        have hpS : p ∈ S := by
          rcases hpar with hnone | ⟨q, hqS, hq⟩
          · rw [hnone] at hp; cases hp
          · rw [hq] at hp
            exact (Option.some.injEq .. ▸ hp) ▸ hqS
        exact Or.inr (chain_in_S vs S hcl j d y hdv (hdi ▸ hpS) h)

/-- Under the walk invariant, no child of `e` lies on a parent chain going up
from `e`: the subtree below `e` cannot reach back to `e` or its ancestors. -/
theorem no_up_to_child (vs : List QGroupEntry) (S : Finset String) (e c : QGroupEntry)
    (hcl : ∀ d, d ∈ vs → d.qgroupid ∈ S → d.parent = none ∨ ∃ p ∈ S, d.parent = some p)
    (hpar : e.parent = none ∨ ∃ p ∈ S, e.parent = some p)
    (heS : e.qgroupid ∉ S)
    (hcv : c ∈ vs) (hcp : c.parent = some e.qgroupid)
    (m : Nat) (h : upN vs m e = some c) : False := by
  rcases up_from_inv vs S e hcl hpar m c h with hce | ⟨_, hcS⟩
  · subst hce
    rcases hpar with hnone | ⟨q, hqS, hq⟩
    · rw [hnone] at hcp; cases hcp
    · rw [hq] at hcp
      exact heS ((Option.some.injEq .. ▸ hcp) ▸ hqS)
  · rcases hcl c hcv hcS with hnone | ⟨q, hqS, hq⟩
    · rw [hnone] at hcp; cases hcp
    · rw [hq] at hcp
      exact heS ((Option.some.injEq .. ▸ hcp).symm ▸ hqS)

/-- Auxiliary to `sib_eq`: the case `m1 ≤ m2`. -/
theorem sib_eq_le (vs : List QGroupEntry) (hn : (vs.map (fun x => x.qgroupid)).Nodup)
    (S : Finset String) (e : QGroupEntry) (he : e ∈ vs)
    (hcl : ∀ d, d ∈ vs → d.qgroupid ∈ S → d.parent = none ∨ ∃ p ∈ S, d.parent = some p)
    (hpar : e.parent = none ∨ ∃ p ∈ S, e.parent = some p)
    (heS : e.qgroupid ∉ S)
    {c1 c2 a : QGroupEntry} {m1 m2 : Nat} (hle : m1 ≤ m2)
    (hc1p : c1.parent = some e.qgroupid)
    (hc2v : c2 ∈ vs) (hc2p : c2.parent = some e.qgroupid)
    (h1 : upN vs m1 a = some c1) (h2 : upN vs m2 a = some c2) : c1 = c2 := by
  have hm2 : m2 = m1 + (m2 - m1) := by omega
  rw [hm2, upN_add, h1] at h2
  have h2' : upN vs (m2 - m1) c1 = some c2 := h2
  rcases hd : m2 - m1 with _ | d
  · rw [hd] at h2'
    simp only [upN, Option.some.injEq] at h2'
    exact h2'
  · rw [hd] at h2'
    have hstep : upStep vs c1 = some e := by
      rw [upStep_eq hc1p]
      exact findE_self vs hn e he
    rw [upN_succ_some d hstep] at h2'
    exact (no_up_to_child vs S e c2 hcl hpar heS hc2v hc2p d h2').elim

/-- Two siblings reached by parent chains from the same entry coincide: the
subtrees of distinct siblings are disjoint. -/
theorem sib_eq (vs : List QGroupEntry) (hn : (vs.map (fun x => x.qgroupid)).Nodup)
    (S : Finset String) (e : QGroupEntry) (he : e ∈ vs)
    (hcl : ∀ d, d ∈ vs → d.qgroupid ∈ S → d.parent = none ∨ ∃ p ∈ S, d.parent = some p)
    (hpar : e.parent = none ∨ ∃ p ∈ S, e.parent = some p)
    (heS : e.qgroupid ∉ S)
    {c1 c2 a : QGroupEntry} {m1 m2 : Nat}
    (hc1v : c1 ∈ vs) (hc1p : c1.parent = some e.qgroupid)
    (hc2v : c2 ∈ vs) (hc2p : c2.parent = some e.qgroupid)
    (h1 : upN vs m1 a = some c1) (h2 : upN vs m2 a = some c2) : c1 = c2 := by
  rcases Nat.le_total m1 m2 with hle | hle
  · exact sib_eq_le vs hn S e he hcl hpar heS hle hc1p hc2v hc2p h1 h2
  · exact (sib_eq_le vs hn S e he hcl hpar heS hle hc2p hc1v hc1p h2 h1).symm

/-- The ancestor set is strictly smaller than the entry count while an
unvisited entry remains. -/
theorem ids_card_bound (vs : List QGroupEntry) (S : Finset String) (e : QGroupEntry)
    (he : e ∈ vs) (heS : e.qgroupid ∉ S)
    (hSids : ∀ s ∈ S, s ∈ vs.map (fun x => x.qgroupid)) : S.card < vs.length := by
  have hsub : insert e.qgroupid S ⊆ (vs.map (fun x => x.qgroupid)).toFinset := by
    intro s hs
    rw [Finset.mem_insert] at hs
    rw [List.mem_toFinset]
    rcases hs with h | h
    · subst h
      exact List.mem_map_of_mem _ he
    · exact hSids s h
  have h1 := Finset.card_le_card hsub
  rw [Finset.card_insert_of_not_mem heS] at h1
  have h2 := List.toFinset_card_le (vs.map (fun x => x.qgroupid))
  rw [List.length_map] at h2
  omega

/-- Master lemma about `_walk` under the ancestor-set invariant: the output is
independent of the fuel once the fuel exceeds the entries not yet on the
ancestor chain; every visited item is a deduplicated entry off the ancestor
set, reached by a parent chain from the walk root, with its level offset by
the chain length; no id is visited twice below one entry; and the paired
level is the entry's parent-hop count. -/
theorem walk_master (vs : List QGroupEntry) (hn : (vs.map (fun e => e.qgroupid)).Nodup) :
    ∀ (k : Nat) (S : Finset String) (e : QGroupEntry) (l : Nat) (f1 f2 : Nat),
      e ∈ vs →
      e.qgroupid ∉ S →
      (∀ d, d ∈ vs → d.qgroupid ∈ S → d.parent = none ∨ ∃ p ∈ S, d.parent = some p) →
      (e.parent = none ∨ ∃ p ∈ S, e.parent = some p) →
      (∀ s ∈ S, s ∈ vs.map (fun e => e.qgroupid)) →
      hopsFuel vs (l + 1) e = some l →
      vs.length + 1 - S.card ≤ f1 →
      vs.length + 1 - S.card ≤ f2 →
      vs.length - S.card ≤ k →
      walkFuel (make_children_map vs) f1 e l = walkFuel (make_children_map vs) f2 e l
      ∧ (∀ it ∈ walkFuel (make_children_map vs) f1 e l,
          it.entry ∈ vs ∧ it.entry.qgroupid ∉ S ∧
          ∃ m, upN vs m it.entry = some e ∧ it.level = l + m)
      ∧ ((walkFuel (make_children_map vs) f1 e l).map (fun it => it.entry.qgroupid)).Nodup
      ∧ (∀ it ∈ walkFuel (make_children_map vs) f1 e l,
          hopsFuel vs (it.level + 1) it.entry = some it.level) := by
  intro k
  induction k with
  | zero =>
    intro S e l f1 f2 he heS hcl hpar hSids hhop hf1 hf2 hk
    exfalso
    have := ids_card_bound vs S e he heS hSids
    omega
  | succ k ih =>
    intro S e l f1 f2 he heS hcl hpar hSids hhop hf1 hf2 hk
    have hcard := ids_card_bound vs S e he heS hSids
    obtain ⟨f1', rfl⟩ : ∃ x, f1 = x + 1 := ⟨f1 - 1, by omega⟩
    obtain ⟨f2', rfl⟩ : ∃ x, f2 = x + 1 := ⟨f2 - 1, by omega⟩
    have hchild : ∀ c ∈ cmGet (make_children_map vs) (some e.qgroupid),
        c ∈ vs ∧ c.parent = some e.qgroupid :=
      fun c hc => (mem_children_iff vs _ c).mp hc
    have hclS' : ∀ d, d ∈ vs → d.qgroupid ∈ insert e.qgroupid S →
        d.parent = none ∨ ∃ p ∈ insert e.qgroupid S, d.parent = some p := by
      intro d hd hdS
      rw [Finset.mem_insert] at hdS
      rcases hdS with h | h
      · have hde : d = e := nodup_map_inj _ vs hn d hd e he h
        subst hde
        rcases hpar with hnone | ⟨p, hpS, hp⟩
        · exact Or.inl hnone
        · exact Or.inr ⟨p, Finset.mem_insert_of_mem hpS, hp⟩
      · rcases hcl d hd h with hnone | ⟨p, hpS, hp⟩
        · exact Or.inl hnone
        · exact Or.inr ⟨p, Finset.mem_insert_of_mem hpS, hp⟩
    have hcS' : ∀ c ∈ cmGet (make_children_map vs) (some e.qgroupid),
        c.qgroupid ∉ insert e.qgroupid S := by
      intro c hc hcmem
      obtain ⟨hcv, hcp⟩ := hchild c hc
      rw [Finset.mem_insert] at hcmem
      rcases hcmem with h | h
      · have hce : c = e := nodup_map_inj _ vs hn c hcv e he h
        subst hce
        rcases hpar with hnone | ⟨p, hpS, hp⟩
        · rw [hnone] at hcp; cases hcp
        · rw [hp] at hcp
          exact heS ((Option.some.injEq .. ▸ hcp) ▸ hpS)
      · rcases hcl c hcv h with hnone | ⟨p, hpS, hp⟩
        · rw [hnone] at hcp; cases hcp
        · rw [hp] at hcp
          exact heS ((Option.some.injEq .. ▸ hcp) ▸ hpS)
    have hSids' : ∀ s ∈ insert e.qgroupid S, s ∈ vs.map (fun e => e.qgroupid) := by
      intro s hs
      rw [Finset.mem_insert] at hs
      rcases hs with h | h
      · subst h
        exact List.mem_map_of_mem _ he
      · exact hSids s h
    have hScard' : (insert e.qgroupid S).card = S.card + 1 :=
      Finset.card_insert_of_not_mem heS
    have hfindE : findE vs e.qgroupid = some e := findE_self vs hn e he
    have hhopc : ∀ c ∈ cmGet (make_children_map vs) (some e.qgroupid),
        hopsFuel vs (l + 1 + 1) c = some (l + 1) := by
      intro c hc
      rw [hopsFuel_step (l + 1) (hchild c hc).2 hfindE, hhop]
      rfl
    have hg1' : vs.length + 1 - (insert e.qgroupid S).card ≤ f1' := by
      rw [hScard']; omega
    have hg2' : vs.length + 1 - (insert e.qgroupid S).card ≤ f2' := by
      rw [hScard']; omega
    have ihc : ∀ c ∈ cmGet (make_children_map vs) (some e.qgroupid),
        walkFuel (make_children_map vs) f1' c (l + 1)
            = walkFuel (make_children_map vs) f2' c (l + 1)
        ∧ (∀ it ∈ walkFuel (make_children_map vs) f1' c (l + 1),
            it.entry ∈ vs ∧ it.entry.qgroupid ∉ insert e.qgroupid S ∧
            ∃ m, upN vs m it.entry = some c ∧ it.level = (l + 1) + m)
        ∧ ((walkFuel (make_children_map vs) f1' c (l + 1)).map
            (fun it => it.entry.qgroupid)).Nodup
        ∧ (∀ it ∈ walkFuel (make_children_map vs) f1' c (l + 1),
            hopsFuel vs (it.level + 1) it.entry = some it.level) := by
      intro c hc
      exact ih (insert e.qgroupid S) c (l + 1) f1' f2' (hchild c hc).1 (hcS' c hc) hclS'
        (Or.inr ⟨e.qgroupid, Finset.mem_insert_self .., (hchild c hc).2⟩) hSids'
        (hhopc c hc) hg1' hg2' (by rw [hScard']; omega)
    rw [walkFuel_succ, walkFuel_succ]
    refine ⟨?_, ?_, ?_, ?_⟩
    · have hmapeq : (cmGet (make_children_map vs) (some e.qgroupid)).map
          (fun c => walkFuel (make_children_map vs) f1' c (l + 1))
        = (cmGet (make_children_map vs) (some e.qgroupid)).map
          (fun c => walkFuel (make_children_map vs) f2' c (l + 1)) :=
        List.map_congr_left (fun c hc => (ihc c hc).1)
      rw [hmapeq]
    · intro it hit
      rw [List.mem_cons] at hit
      rcases hit with h | h
      · subst h
        exact ⟨he, heS, 0, by simp [upN], (Nat.add_zero l).symm⟩
      · rw [List.mem_flatten] at h
        obtain ⟨lst, hlst, hmem⟩ := h
        rw [List.mem_map] at hlst
        obtain ⟨c, hc, rfl⟩ := hlst
        obtain ⟨hiv, hiS', m, hup, hlev⟩ := (ihc c hc).2.1 it hmem
        refine ⟨hiv, fun hmemS => hiS' (Finset.mem_insert_of_mem hmemS), m + 1, ?_, by omega⟩
        rw [upN_succ_far, hup]
        show upStep vs c = some e
        rw [upStep_eq (hchild c hc).2]
        exact hfindE
    · rw [List.map_cons, List.nodup_cons]
      constructor
      · intro hmem
        rw [List.map_flatten, List.map_map, List.mem_flatten] at hmem
        obtain ⟨lst, hlst, hmem2⟩ := hmem
        rw [List.mem_map] at hlst
        obtain ⟨c, hc, rfl⟩ := hlst
        rw [Function.comp_apply, List.mem_map] at hmem2
        obtain ⟨it, hit, hid⟩ := hmem2
        obtain ⟨hiv, _, m, hup, _⟩ := (ihc c hc).2.1 it hit
        have hie : it.entry = e := nodup_map_inj _ vs hn it.entry hiv e he hid
        rw [hie] at hup
        exact no_up_to_child vs S e c hcl hpar heS (hchild c hc).1 (hchild c hc).2 m hup
      · rw [List.map_flatten, List.map_map, List.nodup_flatten]
        constructor
        · intro l' hl'
          rw [List.mem_map] at hl'
          obtain ⟨c, hc, rfl⟩ := hl'
          exact (ihc c hc).2.2.1
        · rw [List.pairwise_map]
          have hvnodup : vs.Nodup := List.Nodup.of_map _ hn
          have hchn : (cmGet (make_children_map vs) (some e.qgroupid)).Nodup := by
            rw [cmGet_make_children_map]
            exact ((List.perm_insertionSort keyRel _).nodup_iff).mpr (hvnodup.filter _)
          refine List.Pairwise.imp_of_mem ?_ hchn
          intro c1 c2 hc1 hc2 hne x hx1 hx2
          rw [Function.comp_apply, List.mem_map] at hx1 hx2
          obtain ⟨it1, hit1, hid1⟩ := hx1
          obtain ⟨it2, hit2, hid2⟩ := hx2
          obtain ⟨hv1, _, m1, hup1, _⟩ := (ihc c1 hc1).2.1 it1 hit1
          obtain ⟨hv2, _, m2, hup2, _⟩ := (ihc c2 hc2).2.1 it2 hit2
          have heq : it1.entry = it2.entry :=
            nodup_map_inj _ vs hn it1.entry hv1 it2.entry hv2 (hid1.trans hid2.symm)
          rw [heq] at hup1
          exact hne (sib_eq vs hn S e he hcl hpar heS (hchild c1 hc1).1 (hchild c1 hc1).2
            (hchild c2 hc2).1 (hchild c2 hc2).2 hup1 hup2)
    · intro it hit
      rw [List.mem_cons] at hit
      rcases hit with h | h
      · subst h
        exact hhop
      · rw [List.mem_flatten] at h
        obtain ⟨lst, hlst, hmem⟩ := h
        rw [List.mem_map] at hlst
        obtain ⟨c, hc, rfl⟩ := hlst
        exact (ihc c hc).2.2.2 it hmem

/-- Two roots reached by parent chains from the same entry coincide: the
subtrees of distinct roots are disjoint. -/
theorem root_chain_eq (vs : List QGroupEntry) {r1 r2 a : QGroupEntry} {m1 m2 : Nat}
    (h1 : upN vs m1 a = some r1) (h2 : upN vs m2 a = some r2)
    (hr1 : r1.parent = none) (hr2 : r2.parent = none) : r1 = r2 := by
  have aux : ∀ (s1 s2 : QGroupEntry) (n1 n2 : Nat), n1 ≤ n2 →
      upN vs n1 a = some s1 → upN vs n2 a = some s2 → s1.parent = none → s1 = s2 := by
    intro s1 s2 n1 n2 hle g1 g2 hs1
    have hm : n2 = n1 + (n2 - n1) := by omega
    rw [hm, upN_add, g1] at g2
    have g2' : upN vs (n2 - n1) s1 = some s2 := g2
    rcases hd : n2 - n1 with _ | d
    · rw [hd] at g2'
      simp only [upN, Option.some.injEq] at g2'
      exact g2'
    · rw [hd, upN_succ_none d (upStep_none hs1)] at g2'
      cases g2'
  rcases Nat.le_total m1 m2 with hle | hle
  · exact aux r1 r2 m1 m2 hle h1 h2 hr1
  · exact (aux r2 r1 m2 m1 hle h2 h1 hr2).symm

/-- The deduplicated entry list of a built tree. -/
theorem build_vals (es : List QGroupEntry) :
    (QGroupTree.build es).vals = dvalues (entriesDict es) := rfl

/-- Roots-level master lemma: `__iter__` is fuel-stable beyond `entries + 1`,
every traversal item is a deduplicated entry whose parent chain reaches a
parentless root in exactly `level` hops, and no id is emitted twice. -/
theorem tree_master (es : List QGroupEntry) :
    ∀ (f1 f2 : Nat),
      (dvalues (entriesDict es)).length + 1 ≤ f1 →
      (dvalues (entriesDict es)).length + 1 ≤ f2 →
      treeItemsFuel (QGroupTree.build es) f1 = treeItemsFuel (QGroupTree.build es) f2
      ∧ (∀ it ∈ treeItemsFuel (QGroupTree.build es) f1,
          it.entry ∈ dvalues (entriesDict es) ∧
          ∃ m r, upN (dvalues (entriesDict es)) m it.entry = some r ∧
            r.parent = none ∧ it.level = m)
      ∧ ((treeItemsFuel (QGroupTree.build es) f1).map (fun it => it.entry.qgroupid)).Nodup
      ∧ (∀ it ∈ treeItemsFuel (QGroupTree.build es) f1,
          hopsFuel (dvalues (entriesDict es)) (it.level + 1) it.entry = some it.level) := by
  intro f1 f2 hf1 hf2
  have hn := vals_ids_nodup es
  have hroots : ∀ r ∈ (QGroupTree.build es).roots,
      r ∈ dvalues (entriesDict es) ∧ r.parent = none := by
    intro r hr
    exact (mem_children_iff (dvalues (entriesDict es)) none r).mp hr
  have hmaster : ∀ r ∈ (QGroupTree.build es).roots, ∀ (g1 g2 : Nat),
      (dvalues (entriesDict es)).length + 1 ≤ g1 →
      (dvalues (entriesDict es)).length + 1 ≤ g2 →
      walkFuel (make_children_map (dvalues (entriesDict es))) g1 r 0
          = walkFuel (make_children_map (dvalues (entriesDict es))) g2 r 0
      ∧ (∀ it ∈ walkFuel (make_children_map (dvalues (entriesDict es))) g1 r 0,
          it.entry ∈ dvalues (entriesDict es) ∧ it.entry.qgroupid ∉ (∅ : Finset String) ∧
          ∃ m, upN (dvalues (entriesDict es)) m it.entry = some r ∧ it.level = 0 + m)
      ∧ ((walkFuel (make_children_map (dvalues (entriesDict es))) g1 r 0).map
          (fun it => it.entry.qgroupid)).Nodup
      ∧ (∀ it ∈ walkFuel (make_children_map (dvalues (entriesDict es))) g1 r 0,
          hopsFuel (dvalues (entriesDict es)) (it.level + 1) it.entry = some it.level) := by
    intro r hr g1 g2 hg1 hg2
    refine walk_master (dvalues (entriesDict es)) hn ((dvalues (entriesDict es)).length)
      ∅ r 0 g1 g2 (hroots r hr).1 (Finset.not_mem_empty _) ?_ (Or.inl (hroots r hr).2) ?_
      (hopsFuel_root 0 (hroots r hr).2) ?_ ?_ ?_
    · intro d _ hd
      exact absurd hd (Finset.not_mem_empty _)
    · intro s hs
      exact absurd hs (Finset.not_mem_empty _)
    · simpa using hg1
    · simpa using hg2
    · simp
  have hcm : (QGroupTree.build es).children_map
      = make_children_map (dvalues (entriesDict es)) := rfl
  refine ⟨?_, ?_, ?_, ?_⟩
  · unfold treeItemsFuel
    rw [hcm, List.flatMap_def, List.flatMap_def]
    rw [List.map_congr_left (fun r hr => (hmaster r hr f1 f2 hf1 hf2).1)]
  · intro it hit
    unfold treeItemsFuel at hit
    rw [hcm, List.mem_flatMap] at hit
    obtain ⟨r, hr, hmem⟩ := hit
    obtain ⟨hiv, _, m, hup, hlev⟩ := (hmaster r hr f1 f2 hf1 hf2).2.1 it hmem
    exact ⟨hiv, m, r, hup, (hroots r hr).2, by omega⟩
  · unfold treeItemsFuel
    rw [hcm, List.map_flatMap, List.nodup_flatMap]
    constructor
    · intro r hr
      exact (hmaster r hr f1 f2 hf1 hf2).2.2.1
    · have hrnodup : (QGroupTree.build es).roots.Nodup := by
        have : (QGroupTree.build es).roots
            = cmGet (make_children_map (dvalues (entriesDict es))) none := rfl
        rw [this, cmGet_make_children_map]
        exact ((List.perm_insertionSort keyRel _).nodup_iff).mpr
          ((List.Nodup.of_map _ hn).filter _)
      refine List.Pairwise.imp_of_mem ?_ hrnodup
      intro r1 r2 hr1 hr2 hne x hx1 hx2
      rw [List.mem_map] at hx1 hx2
      obtain ⟨it1, hit1, hid1⟩ := hx1
      obtain ⟨it2, hit2, hid2⟩ := hx2
      obtain ⟨hv1, _, m1, hup1, _⟩ := (hmaster r1 hr1 f1 f2 hf1 hf2).2.1 it1 hit1
      obtain ⟨hv2, _, m2, hup2, _⟩ := (hmaster r2 hr2 f1 f2 hf1 hf2).2.1 it2 hit2
      have heq : it1.entry = it2.entry :=
        nodup_map_inj _ _ hn it1.entry hv1 it2.entry hv2 (hid1.trans hid2.symm)
      rw [heq] at hup1
      exact hne (root_chain_eq (dvalues (entriesDict es)) hup1 hup2
        (hroots r1 hr1).2 (hroots r2 hr2).2)
  · intro it hit
    unfold treeItemsFuel at hit
    rw [hcm, List.mem_flatMap] at hit
    obtain ⟨r, hr, hmem⟩ := hit
    exact (hmaster r hr f1 f2 hf1 hf2).2.2.2 it hmem

/-! ## Parser shape lemmas -/

theorem headerOk : pySplitWs (pyStrip "qgroupid rfer excl parent") = headerFields := by decide

theorem parseLinesGo_entry (raw : String) (rest : List String) (n : Nat)
    (h1 : ¬ n = 1) (h2 : ¬ n = 2) :
    parseLinesGo (raw :: rest) n
      = match (if pyStartswith (pyStrip raw) "ID"
               then (SubvolEntry.from_line (pyStrip raw)).map Sum.inl
               else (QGroupEntry.from_line (pyStrip raw)).map Sum.inr) with
        | .ok e => (parseLinesGo rest (n + 1)).map (fun l => e :: l)
        | .error err => .error err := by
  simp only [parseLinesGo]
  rw [if_neg h1, if_neg h2]

theorem parseLines_two (l2 : String) (rest : List String) :
    parseLines ("qgroupid rfer excl parent" :: l2 :: rest)
      = if pySetEqDashSpace (pyStrip l2).data then parseLinesGo rest 3
        else .error .assertionError := by
  unfold parseLines
  simp [parseLinesGo, headerOk]

/-! ## The claims -/

/-- C1, counterexample: the claim says a second line consisting solely of
dashes (in particular, all dashes) is accepted; in fact the `assert
set(line) == set(['-', ' '])` rejects an all-dash separator, raising an
`AssertionError` (not a `FormatError`, and carrying no line text). -/
theorem claim_C1_counterexample :
    parseLines ["qgroupid rfer excl parent", "----"] = .error .assertionError := by rfl

/-- C1 (amended): with a valid header, the second line is accepted exactly
when the character set of the stripped line is exactly `{'-', ' '}` — both a
dash and a space must occur and nothing else (so all-dash, all-space and
empty separators are rejected); every rejection is an `AssertionError` that
carries no line text, not a `FormatError`. -/
theorem claim_C1 (line2 : String) :
    (parseLines ["qgroupid rfer excl parent", line2] = .ok []
        ↔ pySetEqDashSpace (pyStrip line2).data = true)
    ∧ (parseLines ["qgroupid rfer excl parent", line2] = .error .assertionError
        ↔ pySetEqDashSpace (pyStrip line2).data = false) := by
  have h := parseLines_two line2 []
  rcases hc : pySetEqDashSpace (pyStrip line2).data with _ | _
  · rw [hc] at h
    simp only [Bool.false_eq_true, if_false] at h
    rw [h]
    constructor
    · constructor
      · intro hok; cases hok
      · intro hct; cases hct
    · simp [hc]
  · rw [hc] at h
    simp only [if_true] at h
    rw [h]
    constructor
    · constructor
      · intro _; rfl
      · intro _; rfl
    · constructor
      · intro hbad; cases hbad
      · intro hct; cases hct

/-- C1, witness: the amended claim evaluated at the separator `"-- -"`. -/
theorem claim_C1_witness :
    (parseLines ["qgroupid rfer excl parent", "-- -"] = .ok []
        ↔ pySetEqDashSpace (pyStrip "-- -").data = true)
    ∧ (parseLines ["qgroupid rfer excl parent", "-- -"] = .error .assertionError
        ↔ pySetEqDashSpace (pyStrip "-- -").data = false) :=
  claim_C1 "-- -"

/-- C2, counterexample: the claim says a four-token line whose first token
merely begins with `"ID"`, such as `"IDx 1 2 ---"`, parses as an
AccountingRecord; in fact classification uses `line.startswith('ID')`, so the
line is handed to the subvolume parser and the run fails with a
`ParseError`. -/
theorem claim_C2_counterexample :
    parseLines ["qgroupid rfer excl parent", "---- ----", "IDx 1 2 ---"]
      = .error (.parseError "Not a valid subvol entry: IDx 1 2 ---") := by rfl

/-- C2 (amended): for every line after the first two, classification depends
only on whether the stripped line begins with the two characters `"ID"`: if
it does, the line goes to the subvolume parser — which additionally requires
the first whitespace token to be exactly `"ID"` and otherwise fails with a
`ParseError` — and if it does not, the line is parsed as an accounting
record; a four-token line whose first token merely begins with `"ID"`
therefore fails instead of parsing as an accounting record. -/
theorem claim_C2 (line : String) :
    (pyStartswith (pyStrip line) "ID" = true →
        parseLines ["qgroupid rfer excl parent", "---- ----", line]
          = (SubvolEntry.from_line (pyStrip line)).map (fun s => [Sum.inl s]))
    ∧ (pyStartswith (pyStrip line) "ID" = false →
        parseLines ["qgroupid rfer excl parent", "---- ----", line]
          = (QGroupEntry.from_line (pyStrip line)).map (fun q => [Sum.inr q]))
    ∧ (∀ t : String, (pySplitWs line)[0]? = some t → ¬ t = "ID" →
        SubvolEntry.from_line line
          = .error (.parseError ("Not a valid subvol entry: " ++ line)))
    ∧ parseLines ["qgroupid rfer excl parent", "---- ----", "IDx 1 2 ---"]
        = .error (.parseError "Not a valid subvol entry: IDx 1 2 ---") := by
  have hs := parseLines_two "---- ----" [line]
  rw [if_pos (by decide)] at hs
  have he := parseLinesGo_entry line [] 3 (by omega) (by omega)
  refine ⟨?_, ?_, ?_, by rfl⟩
  · intro hst
    rw [hs, he, if_pos hst]
    rcases hr : SubvolEntry.from_line (pyStrip line) with err | s
    · simp [Except.map, hr]
    · simp [Except.map, hr, parseLinesGo]
  · intro hst
    rw [hs, he, if_neg (by rw [hst]; exact Bool.false_ne_true)]
    rcases hr : QGroupEntry.from_line (pyStrip line) with err | q
    · simp [Except.map, hr]
    · simp [Except.map, hr, parseLinesGo]
  · intro t hget hne
    rcases h0 : (pySplitWs line)[0]? with _ | t0
    · rw [h0] at hget; cases hget
    · rw [h0] at hget
      have ht : t0 = t := Option.some.injEq .. ▸ hget
      subst ht
      rcases h1 : (pySplitWs line)[1]? with _ | t1
      · simp [SubvolEntry.from_line, h0, h1]
      · rcases h8 : (pySplitWs line)[8]? with _ | t8
        · simp [SubvolEntry.from_line, h0, h1, h8]
        · simp [SubvolEntry.from_line, h0, h1, h8, hne]

/-- C2, witness: both classification branches and the strict token check,
each at a concrete line. -/
theorem claim_C2_witness :
    (parseLines ["qgroupid rfer excl parent", "---- ----", "ID 257 gen 1 top level 5 path @"]
        = (SubvolEntry.from_line (pyStrip "ID 257 gen 1 top level 5 path @")).map
            (fun s => [Sum.inl s]))
    ∧ (parseLines ["qgroupid rfer excl parent", "---- ----", "0/5 1 1 ---"]
        = (QGroupEntry.from_line (pyStrip "0/5 1 1 ---")).map (fun q => [Sum.inr q]))
    ∧ SubvolEntry.from_line "IDx 1 2 ---"
        = .error (.parseError ("Not a valid subvol entry: " ++ "IDx 1 2 ---")) :=
  ⟨(claim_C2 "ID 257 gen 1 top level 5 path @").1 (by decide),
   (claim_C2 "0/5 1 1 ---").2.1 (by decide),
   (claim_C2 "IDx 1 2 ---").2.2.1 "IDx" (by decide) (by decide)⟩

/-- Decomposition of an id at the first `'/'` into numeric level and number
parts, as the spec words the composite form (the second, spec-side rendering
of `get_sort_key`'s decomposition). -/
def idParts (s : String) : Option (Nat × Nat) :=
  match splitSlashOnce s.data with
  | some (a, b) =>
    if pyIsDigit ⟨a⟩ && pyIsDigit ⟨b⟩ then some (strToNat ⟨a⟩, strToNat ⟨b⟩) else none
  | none => none

/-- The SubvolumeKey as the spec words it: present only when the id
decomposes with `levelPart = 0`, and then equal to `numPart`. -/
def specSubvolKey (s : String) : Option Int :=
  match idParts s with
  | some (l, n) => if l = 0 then some (n : Int) else none
  | none => none

/-- C7: for every accounting record the derived SubvolumeKey is present if
and only if the id decomposes as `"<level>/<num>"` with numeric halves and
zero level part, and then equals the number part: `subvol_id` coincides with
the spec-side `specSubvolKey`; `"0/257"` yields 257, `"1/300"` and
non-composite ids yield nothing. -/
theorem claim_C7 (e : QGroupEntry) :
    QGroupEntry.subvol_id e = specSubvolKey e.qgroupid
    ∧ QGroupEntry.subvol_id ⟨"0/257", 0, 0, none⟩ = some 257
    ∧ QGroupEntry.subvol_id ⟨"1/300", 0, 0, none⟩ = none
    ∧ QGroupEntry.subvol_id ⟨"abc", 0, 0, none⟩ = none := by
  refine ⟨?_, by rfl, by rfl, by rfl⟩
  unfold QGroupEntry.subvol_id QGroupEntry.get_sort_key specSubvolKey idParts
  rcases hs : splitSlashOnce e.qgroupid.data with _ | ⟨a, b⟩
  · simp
  · by_cases hd : (pyIsDigit ⟨a⟩ && pyIsDigit ⟨b⟩) = true
    · simp only [hd, if_true]
      by_cases hz : strToNat ⟨a⟩ = 0
      · simp [hz]
      · simp [hz]
    · simp only [Bool.not_eq_true] at hd
      simp [hd]

/-- C4: a record whose SubvolumeKey is the integer 0 (in particular id
`"0/0"`) always gets the empty path, even when the subvolume dictionary
contains key 0 — Python's `if subvol_id` is falsy at 0, so the lookup is
skipped; the end-to-end run on an input containing both `0/0` and a
subvolume with id 0 shows the empty path in the emitted line. -/
theorem claim_C4 (svmap : List (Int × SubvolEntry)) (e : QGroupEntry) :
    (QGroupEntry.subvol_id e = some 0 → subvolPathFor svmap e = "")
    ∧ (∀ (r x : Int) (p : Option String), subvolPathFor svmap ⟨"0/0", r, x, p⟩ = "")
    ∧ mainRun ["qgroupid rfer excl parent", "---- ----", "0/0 100 100 ---",
        "ID 0 gen 1 top level 5 path sub0"]
      = .ok [⟨⟨"0/0", 100, 100, none⟩, 0, ""⟩] := by
  refine ⟨?_, ?_, by rfl⟩
  · intro h
    unfold subvolPathFor
    rw [h]
    simp
  · intro r x p
    rfl

/-- C4, witness: the zero-key skip applied to a concrete record and a
dictionary that does contain the key 0. -/
theorem claim_C4_witness :
    subvolPathFor [((0 : Int), ⟨0, "sub0"⟩)] ⟨"0/0", 1, 1, none⟩ = "" :=
  (claim_C4 [((0 : Int), ⟨0, "sub0"⟩)] ⟨"0/0", 1, 1, none⟩).1 (by decide)

theorem sort_key_decomp (e : QGroupEntry) :
    QGroupEntry.get_sort_key e
      = match idParts e.qgroupid with
        | some (a, b) => ((a : Int), (b : Int), e.qgroupid)
        | none => ((-1 : Int), (0 : Int), e.qgroupid) := by
  unfold QGroupEntry.get_sort_key idParts
  rcases hs : splitSlashOnce e.qgroupid.data with _ | ⟨a, b⟩
  · rfl
  · by_cases hd : (pyIsDigit ⟨a⟩ && pyIsDigit ⟨b⟩) = true
    · simp [hd]
    · simp only [Bool.not_eq_true] at hd
      simp [hd]

theorem keyLe_facts {x y : QGroupEntry}
    (h : keyLeB x.get_sort_key y.get_sort_key = true) :
    (idParts x.qgroupid ≠ none → idParts y.qgroupid ≠ none)
    ∧ (idParts x.qgroupid = none → idParts y.qgroupid = none →
        strLeB x.qgroupid y.qgroupid = true)
    ∧ (∀ (lv na nb : Nat), idParts x.qgroupid = some (lv, na) →
        idParts y.qgroupid = some (lv, nb) → na ≤ nb) := by
  rw [sort_key_decomp x, sort_key_decomp y] at h
  refine ⟨?_, ?_, ?_⟩
  · intro hx hy
    rcases hpx : idParts x.qgroupid with _ | ⟨a, b⟩
    · exact hx hpx
    · rw [hpx, hy] at h
      simp only [keyLeB, keyCmp, intCmp] at h
      split_ifs at h <;> first | omega | simp_all
  · intro hx hy
    rw [hx, hy] at h
    simp only [keyLeB, keyCmp, intCmp] at h
    norm_num at h
    unfold strLeB
    exact h
  · intro lv na nb hx hy
    rw [hx, hy] at h
    by_contra hlt
    push_neg at hlt
    have hgt : intCmp ((na : Int)) ((nb : Int)) = .gt := by
      unfold intCmp
      rw [if_neg (by omega), if_pos (by omega)]
    have heq : intCmp ((lv : Int)) ((lv : Int)) = .eq := (intCmp_eq_iff _ _).mpr rfl
    simp only [keyLeB, keyCmp, heq, hgt] at h
    exact Bool.noConfusion h

/-- C5: every sibling list of the hierarchy is sorted ascending by the
SortKey — which decomposes the id into `(levelPart, numPart, id)` when both
halves of `"<level>/<num>"` are numeric and is `(-1, 0, id)` otherwise — so
within one sibling group every non-composite id sorts before every composite
id, non-composite ids are ordered lexicographically by the raw id string, and
composite ids sharing a level part are ordered ascending by numPart. -/
theorem claim_C5 (es : List QGroupEntry) (k : Option String) :
    (∀ e : QGroupEntry, QGroupEntry.get_sort_key e
        = match idParts e.qgroupid with
          | some (a, b) => ((a : Int), (b : Int), e.qgroupid)
          | none => ((-1 : Int), (0 : Int), e.qgroupid))
    ∧ (cmGet (QGroupTree.build es).children_map k).Pairwise (fun x y =>
        keyLeB x.get_sort_key y.get_sort_key = true
        ∧ (idParts x.qgroupid ≠ none → idParts y.qgroupid ≠ none)
        ∧ (idParts x.qgroupid = none → idParts y.qgroupid = none →
            strLeB x.qgroupid y.qgroupid = true)
        ∧ (∀ (lv na nb : Nat), idParts x.qgroupid = some (lv, na) →
            idParts y.qgroupid = some (lv, nb) → na ≤ nb)) := by
  refine ⟨sort_key_decomp, ?_⟩
  have hcm : (QGroupTree.build es).children_map
      = make_children_map (dvalues (entriesDict es)) := rfl
  rw [hcm, cmGet_make_children_map]
  have hs := List.sorted_insertionSort keyRel
    ((dvalues (entriesDict es)).filter (fun e => e.parent = k))
  refine hs.imp ?_
  intro a b hab
  exact ⟨hab, (keyLe_facts hab).1, (keyLe_facts hab).2.1, (keyLe_facts hab).2.2⟩

theorem filterMap_if_eq {α β : Type} (p : α → Prop) [DecidablePred p] (f : α → β) :
    ∀ l : List α, l.filterMap (fun a => if p a then some (f a) else none)
      = (l.filter (fun a => p a)).map f
  | [] => rfl
  | a :: tl => by
    by_cases h : p a
    · simp [List.filterMap_cons, List.filter_cons, h, filterMap_if_eq p f tl]
    · simp [List.filterMap_cons, List.filter_cons, h, filterMap_if_eq p f tl]

/-- C8: the report emits a line for a traversal item exactly when the
record's `rfer` is non-zero; filtering is display-only, so the emitted lines
are the traversal filtered by `rfer` and mapped to report lines with the
traversal level kept intact — children of a filtered record still appear at
their structural depth, as the end-to-end zero-`rfer`-root example shows. -/
theorem claim_C8 (svmap : List (Int × SubvolEntry)) (es : List QGroupEntry) :
    (report svmap (QGroupTree.build es)
      = ((treeItems (QGroupTree.build es)).filter (fun it => it.entry.rfer ≠ 0)).map
          (fun it => ⟨it.entry, it.level, subvolPathFor svmap it.entry⟩))
    ∧ (∀ (e : QGroupEntry) (l : Nat) (p : String),
        (⟨e, l, p⟩ : ReportLine) ∈ report svmap (QGroupTree.build es)
          ↔ (⟨e, l⟩ : QGroupTreeItem) ∈ treeItems (QGroupTree.build es)
            ∧ e.rfer ≠ 0 ∧ p = subvolPathFor svmap e)
    ∧ mainRun ["qgroupid rfer excl parent", "---- ----", "0/5 0 0 ---", "0/7 5 5 0/5"]
      = .ok [⟨⟨"0/7", 5, 5, some "0/5"⟩, 1, ""⟩] := by
  have h1 : report svmap (QGroupTree.build es)
      = ((treeItems (QGroupTree.build es)).filter (fun it => it.entry.rfer ≠ 0)).map
          (fun it => ⟨it.entry, it.level, subvolPathFor svmap it.entry⟩) := by
    unfold report
    exact filterMap_if_eq (fun (it : QGroupTreeItem) => it.entry.rfer ≠ 0)
      (fun (it : QGroupTreeItem) =>
        ReportLine.mk it.entry it.level (subvolPathFor svmap it.entry)) _
  refine ⟨h1, ?_, by rfl⟩
  intro e l p
  rw [h1]
  constructor
  · intro hmem
    rw [List.mem_map] at hmem
    obtain ⟨it, hit, heq⟩ := hmem
    rw [List.mem_filter] at hit
    obtain ⟨he1, he2, he3⟩ := ReportLine.mk.injEq .. ▸ heq
    have hit' : it = ⟨e, l⟩ := by
      obtain ⟨a, b⟩ := it
      simp only at he1 he2
      rw [he1, he2]
    rw [hit'] at hit
    refine ⟨hit.1, by simpa using hit.2, ?_⟩
    rw [← he3, hit']
  · rintro ⟨hmem, hr, hp⟩
    rw [List.mem_map]
    refine ⟨⟨e, l⟩, ?_, ?_⟩
    · rw [List.mem_filter]
      exact ⟨hmem, by simpa using hr⟩
    · rw [hp]

theorem treeItems_entry_shape (es : List QGroupEntry) :
    ∀ it ∈ treeItems (QGroupTree.build es),
      it.entry ∈ dvalues (entriesDict es) ∧
        (it.entry.parent = none ∨
          ∃ d, d ∈ dvalues (entriesDict es) ∧ it.entry.parent = some d.qgroupid) := by
  intro it hit
  have hit' : it ∈ (QGroupTree.build es).roots.flatMap
      (fun r => walkFuel (make_children_map (dvalues (entriesDict es)))
        ((QGroupTree.build es).entries.length + 1) r 0) := hit
  rw [List.mem_flatMap] at hit'
  obtain ⟨r, hr, hmem⟩ := hit'
  have hroot := (mem_children_iff (dvalues (entriesDict es)) none r).mp hr
  obtain ⟨hin, hshape⟩ :=
    walk_entry_shape (dvalues (entriesDict es)) _ r 0 it hroot.1 hmem
  refine ⟨hin, ?_⟩
  rcases hshape with h | h
  · left
    rw [h]
    exact hroot.2
  · right
    exact h

/-- C3: a record whose declared parent id is not the id of any record is
grouped under that non-existent key and never appears in the traversal: every
traversal item either has no parent or has a parent naming an existing
record's id, roots all have no parent, and the spec's end-to-end example
prints roots `0/5` and `0/257` while `0/258` (parent `255/258`) never
appears — no error is raised. -/
theorem claim_C3 (es : List QGroupEntry) :
    (∀ it ∈ treeItems (QGroupTree.build es),
        it.entry.parent = none ∨ ∃ d, d ∈ es ∧ it.entry.parent = some d.qgroupid)
    ∧ (∀ r ∈ (QGroupTree.build es).roots, r.parent = none)
    ∧ mainRun ["qgroupid         rfer         excl parent",
        "--------         ----         ---- ------",
        "0/5             16384        16384 ---",
        "0/257     16320008192  16320008192 ---",
        "0/258     20404953088  20404953088 255/258",
        "ID 257 gen 1 top level 5 path @",
        "ID 258 gen 1 top level 5 path @home"]
      = .ok [⟨⟨"0/5", 16384, 16384, none⟩, 0, ""⟩,
             ⟨⟨"0/257", 16320008192, 16320008192, none⟩, 0, "@"⟩] := by
  refine ⟨?_, ?_, by rfl⟩
  · intro it hit
    rcases (treeItems_entry_shape es it hit).2 with h | ⟨d, hd, hp⟩
    · exact Or.inl h
    · exact Or.inr ⟨d, vals_subset es d hd, hp⟩
  · intro r hr
    exact ((mem_children_iff (dvalues (entriesDict es)) none r).mp hr).2

/-- C9: when several records share an id, only the last parsed record with
that id appears anywhere in the hierarchy: every member of every sibling list
and every traversal entry equals the last input record carrying its id (the
value `find?` on the reversed input returns), so earlier duplicates are
dropped from sibling lists and traversal alike, as the end-to-end duplicate
example shows. -/
theorem claim_C9 (es : List QGroupEntry) :
    (∀ (k : Option String) (x : QGroupEntry),
        x ∈ cmGet (QGroupTree.build es).children_map k →
        es.reverse.find? (fun y => y.qgroupid = x.qgroupid) = some x)
    ∧ (∀ it ∈ treeItems (QGroupTree.build es),
        es.reverse.find? (fun y => y.qgroupid = it.entry.qgroupid) = some it.entry)
    ∧ mainRun ["qgroupid rfer excl parent", "---- ----", "0/5 1 1 ---", "0/5 2 2 ---"]
      = .ok [⟨⟨"0/5", 2, 2, none⟩, 0, ""⟩] := by
  refine ⟨?_, ?_, by rfl⟩
  · intro k x hx
    have hx' : x ∈ dvalues (entriesDict es) := ((mem_children_iff _ k x).mp hx).1
    rw [← dlookup_entriesDict]
    exact dlookup_of_mem_vals es x hx'
  · intro it hit
    rw [← dlookup_entriesDict]
    exact dlookup_of_mem_vals es it.entry (treeItems_entry_shape es it hit).1

/-- C3, witness: the orphan-exclusion statement applied to a concrete
traversal item of a one-record tree. -/
theorem claim_C3_witness :
    (⟨⟨"0/5", 1, 1, none⟩, 0⟩ : QGroupTreeItem).entry.parent = none
      ∨ ∃ d, d ∈ [(⟨"0/5", 1, 1, none⟩ : QGroupEntry)]
          ∧ (⟨⟨"0/5", 1, 1, none⟩, 0⟩ : QGroupTreeItem).entry.parent = some d.qgroupid :=
  (claim_C3 [⟨"0/5", 1, 1, none⟩]).1 ⟨⟨"0/5", 1, 1, none⟩, 0⟩ (by decide)

/-- C9, witness: the last-write-wins statement applied to a concrete
traversal item of a duplicate-id input. -/
theorem claim_C9_witness :
    [(⟨"0/5", 1, 1, none⟩ : QGroupEntry), ⟨"0/5", 2, 2, none⟩].reverse.find?
        (fun y => y.qgroupid = (⟨⟨"0/5", 2, 2, none⟩, 0⟩ : QGroupTreeItem).entry.qgroupid)
      = some (⟨⟨"0/5", 2, 2, none⟩, 0⟩ : QGroupTreeItem).entry :=
  (claim_C9 [⟨"0/5", 1, 1, none⟩, ⟨"0/5", 2, 2, none⟩]).2.1
    ⟨⟨"0/5", 2, 2, none⟩, 0⟩ (by decide)

/-- C6: the traversal is depth-first pre-order — each record is emitted
before its children, which are processed in sorted order, and the roots are
walked in sorted order; the depth paired with each record equals its number
of parent hops to a root (0 for roots, parent depth + 1 for children, which
is what `hopsFuel` computes); and no id is visited twice. -/
theorem claim_C6 (es : List QGroupEntry) :
    (∀ (f : Nat) (e : QGroupEntry) (l : Nat),
        walkFuel (QGroupTree.build es).children_map (f + 1) e l
          = ⟨e, l⟩ :: ((List.insertionSort keyRel
                ((dvalues (entriesDict es)).filter
                  (fun d => d.parent = some e.qgroupid))).map
              (fun c => walkFuel (QGroupTree.build es).children_map f c (l + 1))).flatten)
    ∧ (treeItems (QGroupTree.build es)
        = (List.insertionSort keyRel
            ((dvalues (entriesDict es)).filter (fun d => d.parent = none))).flatMap
            (fun r => walkFuel (QGroupTree.build es).children_map
              ((QGroupTree.build es).entries.length + 1) r 0))
    ∧ (∀ it ∈ treeItems (QGroupTree.build es),
        hopsFuel (dvalues (entriesDict es)) (it.level + 1) it.entry = some it.level)
    ∧ ((treeItems (QGroupTree.build es)).map (fun it => it.entry.qgroupid)).Nodup := by
  have hcm : (QGroupTree.build es).children_map
      = make_children_map (dvalues (entriesDict es)) := rfl
  have hlen : (dvalues (entriesDict es)).length + 1
      ≤ (QGroupTree.build es).entries.length + 1 := by
    have h1 : (dvalues (entriesDict es)).length = (entriesDict es).length :=
      List.length_map _ _
    have h2 : (QGroupTree.build es).entries = entriesDict es := rfl
    rw [h2, h1]
  have hm := tree_master es ((QGroupTree.build es).entries.length + 1)
      ((QGroupTree.build es).entries.length + 1) hlen hlen
  refine ⟨?_, ?_, ?_, ?_⟩
  · intro f e l
    rw [walkFuel_succ, hcm, cmGet_make_children_map]
  · show treeItemsFuel (QGroupTree.build es) ((QGroupTree.build es).entries.length + 1) = _
    unfold treeItemsFuel
    have hroots : (QGroupTree.build es).roots
        = List.insertionSort keyRel
            ((dvalues (entriesDict es)).filter (fun d => d.parent = none)) := by
      show cmGet (make_children_map (dvalues (entriesDict es))) none = _
      rw [cmGet_make_children_map]
    rw [hroots]
  · exact fun it hit => hm.2.2.2 it hit
  · exact hm.2.2.1

/-- C10: iterating the tree terminates for every entry set, including ones
whose parent pointers form a cycle or a self-loop: the output is already
stable at fuel `entries + 1` (the shallow rendering of termination of the
unbounded Python recursion), only records whose parent chain reaches the
absent-parent sentinel are ever visited, and the end-to-end cycle example
emits only the root, silently excluding the two-cycle. -/
theorem claim_C10 (es : List QGroupEntry) :
    (∀ f : Nat, (QGroupTree.build es).entries.length + 1 ≤ f →
        treeItemsFuel (QGroupTree.build es) f = treeItems (QGroupTree.build es))
    ∧ (∀ it ∈ treeItems (QGroupTree.build es),
        ∃ (m : Nat) (r : QGroupEntry),
          upN (dvalues (entriesDict es)) m it.entry = some r ∧ r.parent = none)
    ∧ mainRun ["qgroupid rfer excl parent", "---- ----", "0/5 1 1 ---",
        "0/7 1 1 0/8", "0/8 1 1 0/7"]
      = .ok [⟨⟨"0/5", 1, 1, none⟩, 0, ""⟩] := by
  have hlen : (dvalues (entriesDict es)).length + 1
      ≤ (QGroupTree.build es).entries.length + 1 := by
    have h1 : (dvalues (entriesDict es)).length = (entriesDict es).length :=
      List.length_map _ _
    have h2 : (QGroupTree.build es).entries = entriesDict es := rfl
    rw [h2, h1]
  refine ⟨?_, ?_, by rfl⟩
  · intro f hf
    exact (tree_master es f ((QGroupTree.build es).entries.length + 1)
      (le_trans hlen hf) hlen).1
  · intro it hit
    obtain ⟨_, m, r, hup, hr, _⟩ :=
      (tree_master es ((QGroupTree.build es).entries.length + 1)
        ((QGroupTree.build es).entries.length + 1) hlen hlen).2.1 it hit
    exact ⟨m, r, hup, hr⟩

/-- C6, witness: the depth/no-revisit statements applied to a concrete
two-level tree. -/
theorem claim_C6_witness :
    hopsFuel (dvalues (entriesDict
        [(⟨"0/5", 1, 1, none⟩ : QGroupEntry), ⟨"0/7", 1, 1, some "0/5"⟩]))
        ((⟨⟨"0/7", 1, 1, some "0/5"⟩, 1⟩ : QGroupTreeItem).level + 1)
        (⟨⟨"0/7", 1, 1, some "0/5"⟩, 1⟩ : QGroupTreeItem).entry
      = some (⟨⟨"0/7", 1, 1, some "0/5"⟩, 1⟩ : QGroupTreeItem).level :=
  (claim_C6 [⟨"0/5", 1, 1, none⟩, ⟨"0/7", 1, 1, some "0/5"⟩]).2.2.1
    ⟨⟨"0/7", 1, 1, some "0/5"⟩, 1⟩ (by decide)

/-- C10, witness: fuel-stability and sentinel-reachability applied to the
concrete cyclic input. -/
theorem claim_C10_witness :
    treeItemsFuel (QGroupTree.build
        [(⟨"0/5", 1, 1, none⟩ : QGroupEntry), ⟨"0/7", 1, 1, some "0/8"⟩,
         ⟨"0/8", 1, 1, some "0/7"⟩]) 10
      = treeItems (QGroupTree.build
        [(⟨"0/5", 1, 1, none⟩ : QGroupEntry), ⟨"0/7", 1, 1, some "0/8"⟩,
         ⟨"0/8", 1, 1, some "0/7"⟩]) :=
  (claim_C10 [⟨"0/5", 1, 1, none⟩, ⟨"0/7", 1, 1, some "0/8"⟩,
    ⟨"0/8", 1, 1, some "0/7"⟩]).1 10 (by decide)

/-- C5, witness: the sibling-order statement applied to a concrete root
group mixing a non-composite and a composite id. -/
theorem claim_C5_witness :
    (cmGet (QGroupTree.build
        [(⟨"abc", 1, 1, none⟩ : QGroupEntry), ⟨"0/5", 1, 1, none⟩]).children_map
        none).Pairwise (fun x y =>
      keyLeB x.get_sort_key y.get_sort_key = true
      ∧ (idParts x.qgroupid ≠ none → idParts y.qgroupid ≠ none)
      ∧ (idParts x.qgroupid = none → idParts y.qgroupid = none →
          strLeB x.qgroupid y.qgroupid = true)
      ∧ (∀ (lv na nb : Nat), idParts x.qgroupid = some (lv, na) →
          idParts y.qgroupid = some (lv, nb) → na ≤ nb)) :=
  (claim_C5 [⟨"abc", 1, 1, none⟩, ⟨"0/5", 1, 1, none⟩] none).2

/-- C7, witness: the SubvolumeKey characterization applied to `"0/257"`. -/
theorem claim_C7_witness :
    QGroupEntry.subvol_id ⟨"0/257", 0, 0, none⟩ = specSubvolKey "0/257" :=
  (claim_C7 ⟨"0/257", 0, 0, none⟩).1

/-- C8, witness: the emit-iff-nonzero statement applied to the child of a
filtered zero-`rfer` root. -/
theorem claim_C8_witness :
    ((⟨⟨"0/7", 5, 5, some "0/5"⟩, 1, ""⟩ : ReportLine)
        ∈ report [] (QGroupTree.build
          [(⟨"0/5", 0, 0, none⟩ : QGroupEntry), ⟨"0/7", 5, 5, some "0/5"⟩])
      ↔ (⟨⟨"0/7", 5, 5, some "0/5"⟩, 1⟩ : QGroupTreeItem)
          ∈ treeItems (QGroupTree.build
            [(⟨"0/5", 0, 0, none⟩ : QGroupEntry), ⟨"0/7", 5, 5, some "0/5"⟩])
        ∧ (⟨"0/7", 5, 5, some "0/5"⟩ : QGroupEntry).rfer ≠ 0
        ∧ "" = subvolPathFor [] ⟨"0/7", 5, 5, some "0/5"⟩) :=
  (claim_C8 [] [⟨"0/5", 0, 0, none⟩, ⟨"0/7", 5, 5, some "0/5"⟩]).2.1
    ⟨"0/7", 5, 5, some "0/5"⟩ 1 ""
